import Mathlib

/-!
Verification of the Knot DNS zone and packet code.

The development shallowly embeds two source files:

* the dnslib zone module (`dnslib_zone_*`): the plain AVL tree of zone
  nodes, `dnslib_zone_check_node`, `dnslib_zone_add_node`,
  `dnslib_zone_find_in_tree`, `dnslib_zone_find_dname`, and the adjust
  pass `dnslib_zone_adjust_dnames` with its helpers
  (`dnslib_zone_adjust_rdata_item`, `dnslib_zone_adjust_rdata_in_rrset`,
  `dnslib_zone_adjust_rrsets`, `dnslib_zone_adjust_node`,
  `dnslib_zone_adjust_nsec3_node`, `dnslib_zone_load_nsec3param`);

* `libknot/packet/pkt.c`: `knot_pkt_put` (with the CHECKDUP and NOTRUNC
  flags and the TC bit) and the wire parser
  (`knot_pkt_parse_rr`, `knot_pkt_parse_section`, `knot_pkt_parse_payload`).

Domain names are embedded as lists of labels listed from the root down
(the wire order reversed), so that "a is a subdomain of b" becomes
"b is a list prefix of a" and canonical DNSSEC order becomes
lexicographic order on the label lists.  Heap identity of dname objects
and of nodes (which the C code manipulates through pointers) is embedded
by indices into per-zone stores, so pointer equality is index equality.

Primitives that live in repository files not present under src/
(dname.c, tree.h, node.c, nsec3.c, edns.c, rrset.c) are modelled from the
specification; each such definition carries a doc comment saying so.
-/

set_option maxRecDepth 4000

namespace KnotVer

/-- Modelled from the spec: a label of a domain name.  Label bytes and the
case-insensitive byte comparison are abstracted into a single natural
number per label. -/
abbrev Label := Nat

/-- Modelled from the spec (`canonical_compare`, RFC 4034 section 6.1
ordering): with names stored root-first, canonical order is lexicographic
order on the label lists. -/
def dnameCompare : List Label → List Label → Ordering
  | [], [] => .eq
  | [], _ :: _ => .lt
  | _ :: _, [] => .gt
  | a :: as, b :: bs =>
    if a < b then .lt
    else if b < a then .gt
    else dnameCompare as bs

/-- Modelled from the spec (`is_subdomain`): `labPre b a` holds when `b`
is a list prefix of `a`, i.e. the name with root-first labels `a` equals
or is a strict descendant of the name with labels `b`. -/
def labPre : List Label → List Label → Bool
  | [], _ => true
  | _ :: _, [] => false
  | x :: xs, y :: ys => x == y && labPre xs ys

/-- Modelled from the spec (`matched_labels`): the number of labels in the
longest common suffix of two names; root-first this is the longest common
prefix of the label lists. -/
def matchedLabels : List Label → List Label → Nat
  | a :: as, b :: bs => if a = b then matchedLabels as bs + 1 else 0
  | _, _ => 0

/- ### Order and prefix lemmas for the name model -/

theorem dnameCompare_self (a : List Label) : dnameCompare a a = .eq := by
  induction a with
  | nil => rfl
  | cons x xs ih => simp [dnameCompare, ih]

theorem dnameCompare_eq_iff {a b : List Label} : dnameCompare a b = .eq ↔ a = b := by
  constructor
  · intro h
    induction a generalizing b with
    | nil => cases b with
      | nil => rfl
      | cons y ys => simp [dnameCompare] at h
    | cons x xs ih =>
      cases b with
      | nil => simp [dnameCompare] at h
      | cons y ys =>
        simp only [dnameCompare] at h
        by_cases h1 : x < y
        · simp [h1] at h
        · by_cases h2 : y < x
          · simp [h1, h2] at h
          · have hxy : x = y := Nat.le_antisymm (Nat.le_of_not_lt h2) (Nat.le_of_not_lt h1)
            simp only [h1, if_false, h2] at h
            simp only [hxy]
            exact congrArg (y :: ·) (ih h)
  · intro h; subst h; exact dnameCompare_self a

theorem dnameCompare_swap {a b : List Label} :
    dnameCompare a b = .lt ↔ dnameCompare b a = .gt := by
  induction a generalizing b with
  | nil => cases b <;> simp [dnameCompare]
  | cons x xs ih =>
    cases b with
    | nil => simp [dnameCompare]
    | cons y ys =>
      simp only [dnameCompare]
      by_cases h1 : x < y
      · have h2 : ¬ y < x := Nat.lt_asymm h1
        simp [h1, h2]
      · by_cases h2 : y < x
        · simp [h1, h2]
        · simp [h1, h2, ih]

theorem dnameCompare_trans {a b c : List Label}
    (hab : dnameCompare a b = .lt) (hbc : dnameCompare b c = .lt) :
    dnameCompare a c = .lt := by
  induction a generalizing b c with
  | nil =>
    cases b with
    | nil => simp [dnameCompare] at hab
    | cons y ys => cases c with
      | nil => simp [dnameCompare] at hbc
      | cons z zs => simp [dnameCompare]
  | cons x xs ih =>
    cases b with
    | nil => simp [dnameCompare] at hab
    | cons y ys =>
      cases c with
      | nil => simp [dnameCompare] at hbc
      | cons z zs =>
        simp only [dnameCompare] at hab hbc ⊢
        by_cases hxy : x < y
        · -- x < y; from hbc either y < z or y = z, so x < z
          by_cases hyz : y < z
          · simp [Nat.lt_trans hxy hyz]
          · by_cases hzy : z < y
            · simp [hxy, hyz, hzy] at hbc
            · have : y = z := Nat.le_antisymm (Nat.le_of_not_lt hzy) (Nat.le_of_not_lt hyz)
              subst this
              simp [hxy]
        · by_cases hyx : y < x
          · simp [hxy, hyx] at hab
          · have hxy' : x = y := Nat.le_antisymm (Nat.le_of_not_lt hyx) (Nat.le_of_not_lt hxy)
            subst hxy'
            simp only [hxy, if_false] at hab
            by_cases hyz : x < z
            · simp [hyz]
            · by_cases hzy : z < x
              · simp [hyz, hzy] at hbc
              · have : x = z := Nat.le_antisymm (Nat.le_of_not_lt hzy) (Nat.le_of_not_lt hyz)
                subst this
                simp only [Nat.lt_irrefl, if_false] at hab hbc ⊢
                exact ih hab hbc

theorem dnameCompare_cases (a b : List Label) :
    dnameCompare a b = .lt ∨ dnameCompare a b = .eq ∨ dnameCompare a b = .gt := by
  cases h : dnameCompare a b
  · exact Or.inl rfl
  · exact Or.inr (Or.inl rfl)
  · exact Or.inr (Or.inr rfl)

theorem labPre_refl (a : List Label) : labPre a a = true := by
  induction a with
  | nil => rfl
  | cons x xs ih => simp [labPre, ih]

theorem labPre_length {a b : List Label} (h : labPre a b = true) :
    a.length ≤ b.length := by
  induction a generalizing b with
  | nil => simp
  | cons x xs ih =>
    cases b with
    | nil => simp [labPre] at h
    | cons y ys =>
      simp only [labPre, Bool.and_eq_true, beq_iff_eq] at h
      simpa using ih h.2

theorem labPre_len_eq {a b : List Label} (h : labPre a b = true)
    (hl : b.length ≤ a.length) : a = b := by
  induction a generalizing b with
  | nil => cases b with
    | nil => rfl
    | cons y ys => simp at hl
  | cons x xs ih =>
    cases b with
    | nil => simp [labPre] at h
    | cons y ys =>
      simp only [labPre, Bool.and_eq_true, beq_iff_eq] at h
      simp only [List.length_cons, Nat.succ_le_succ_iff] at hl
      rw [h.1, ih h.2 hl]

theorem labPre_trans {a b c : List Label} (h1 : labPre a b = true)
    (h2 : labPre b c = true) : labPre a c = true := by
  induction a generalizing b c with
  | nil => rfl
  | cons x xs ih =>
    cases b with
    | nil => simp [labPre] at h1
    | cons y ys =>
      cases c with
      | nil => simp [labPre] at h2
      | cons z zs =>
        simp only [labPre, Bool.and_eq_true, beq_iff_eq] at h1 h2 ⊢
        exact ⟨h1.1.trans h2.1, ih h1.2 h2.2⟩

theorem labPre_of_common {a b c : List Label} (h1 : labPre a c = true)
    (h2 : labPre b c = true) (hl : a.length ≤ b.length) : labPre a b = true := by
  induction a generalizing b c with
  | nil => rfl
  | cons x xs ih =>
    cases b with
    | nil => simp at hl
    | cons y ys =>
      cases c with
      | nil => simp [labPre] at h1
      | cons z zs =>
        simp only [labPre, Bool.and_eq_true, beq_iff_eq] at h1 h2 ⊢
        simp only [List.length_cons, Nat.succ_le_succ_iff] at hl
        exact ⟨h1.1.trans h2.1.symm, ih h1.2 h2.2 hl⟩

theorem labPre_proper_lt {a b : List Label} (h : labPre a b = true)
    (hne : a ≠ b) : dnameCompare a b = .lt := by
  induction a generalizing b with
  | nil =>
    cases b with
    | nil => exact absurd rfl hne
    | cons y ys => rfl
  | cons x xs ih =>
    cases b with
    | nil => simp [labPre] at h
    | cons y ys =>
      simp only [labPre, Bool.and_eq_true, beq_iff_eq] at h
      obtain ⟨hxy, hpre⟩ := h
      subst hxy
      have hne' : xs ≠ ys := fun hc => hne (by rw [hc])
      simp [dnameCompare, ih hpre hne']

theorem labPre_common_lower {a b c : List Label} (hac : labPre a c = true)
    (hle : dnameCompare a b ≠ .gt) (hlt : dnameCompare b c = .lt) :
    labPre a b = true := by
  induction a generalizing b c with
  | nil => rfl
  | cons x xs ih =>
    cases c with
    | nil => simp [labPre] at hac
    | cons z zs =>
      simp only [labPre, Bool.and_eq_true, beq_iff_eq] at hac
      obtain ⟨hxz, hac'⟩ := hac
      subst hxz
      cases b with
      | nil => simp [dnameCompare] at hle
      | cons y ys =>
        simp only [dnameCompare] at hle hlt
        by_cases hxy : x < y
        · -- hle would force the comparison of the heads the other way
          have hyx : ¬ y < x := Nat.lt_asymm hxy
          simp [hyx, hxy] at hlt
        · by_cases hyx : y < x
          · simp [hxy, hyx] at hle
          · have hxy' : x = y := Nat.le_antisymm (Nat.le_of_not_lt hyx) (Nat.le_of_not_lt hxy)
            subst hxy'
            simp only [Nat.lt_irrefl, if_false] at hle hlt
            simp only [labPre, Bool.and_eq_true, beq_iff_eq]
            exact ⟨trivial, ih hac' hle hlt⟩

theorem matchedLabels_take (a b : List Label) :
    a.take (matchedLabels a b) = b.take (matchedLabels a b) := by
  induction a generalizing b with
  | nil => cases b <;> simp [matchedLabels]
  | cons x xs ih =>
    cases b with
    | nil => simp [matchedLabels]
    | cons y ys =>
      by_cases h : x = y
      · subst h; simp [matchedLabels, ih ys]
      · simp [matchedLabels, h]

theorem matchedLabels_ge {a b c : List Label} (h1 : labPre c a = true)
    (h2 : labPre c b = true) : c.length ≤ matchedLabels a b := by
  induction c generalizing a b with
  | nil => simp
  | cons x xs ih =>
    cases a with
    | nil => simp [labPre] at h1
    | cons y ys =>
      cases b with
      | nil => simp [labPre] at h2
      | cons z zs =>
        simp only [labPre, Bool.and_eq_true, beq_iff_eq] at h1 h2
        have : y = z := h1.1.symm.trans h2.1
        subst this
        simp only [matchedLabels, if_pos rfl, List.length_cons]
        exact Nat.succ_le_succ (ih h1.2 h2.2)

theorem labPre_take {a b : List Label} (h : labPre a b = true) (m : Nat)
    (hm : a.length ≤ m) : labPre a (b.take m) = true := by
  induction a generalizing b m with
  | nil => rfl
  | cons x xs ih =>
    cases b with
    | nil => simp [labPre] at h
    | cons y ys =>
      cases m with
      | zero => simp at hm
      | succ m' =>
        simp only [labPre, Bool.and_eq_true, beq_iff_eq] at h
        simp only [List.length_cons, Nat.succ_le_succ_iff] at hm
        simp only [List.take_succ_cons, labPre, Bool.and_eq_true, beq_iff_eq]
        exact ⟨h.1, ih h.2 m' hm⟩

theorem labPre_take_self (b : List Label) (m : Nat) : labPre (b.take m) b = true := by
  induction b generalizing m with
  | nil => cases m <;> rfl
  | cons y ys ih =>
    cases m with
    | zero => rfl
    | succ m' => simp [labPre, ih]

/- ### Generic lemmas about lists sorted by a strict key order -/

/-- A list of indices is strictly increasing under canonical order of the
keys given by `f`; this models the AVL-tree invariant (canonical order,
duplicate owners not permitted). -/
def pwLtKey (f : Nat → List Label) : List Nat → Bool
  | [] => true
  | a :: r => r.all (fun b => decide (dnameCompare (f a) (f b) = .lt)) && pwLtKey f r

theorem pwLtKey_tail {f : Nat → List Label} {a : Nat} {r : List Nat}
    (h : pwLtKey f (a :: r) = true) : pwLtKey f r = true := by
  simp only [pwLtKey, Bool.and_eq_true] at h
  exact h.2

theorem pwLtKey_head {f : Nat → List Label} {a : Nat} {r : List Nat}
    (h : pwLtKey f (a :: r) = true) {b : Nat} (hb : b ∈ r) :
    dnameCompare (f a) (f b) = .lt := by
  simp only [pwLtKey, Bool.and_eq_true, List.all_eq_true, decide_eq_true_eq] at h
  exact h.1 b hb

theorem pwLtKey_filter {f : Nat → List Label} (p : Nat → Bool) :
    ∀ {l : List Nat}, pwLtKey f l = true → pwLtKey f (l.filter p) = true := by
  intro l
  induction l with
  | nil => intro _; rfl
  | cons a r ih =>
    intro h
    have htail := ih (pwLtKey_tail h)
    by_cases hp : p a = true
    · simp only [List.filter_cons, hp, if_pos, pwLtKey, Bool.and_eq_true]
      refine ⟨?_, htail⟩
      simp only [List.all_eq_true, decide_eq_true_eq]
      intro b hb
      exact pwLtKey_head h (List.mem_of_mem_filter hb)
    · simp only [List.filter_cons, hp]
      exact htail

theorem getLast?_mem : ∀ {l : List Nat} {y : Nat}, l.getLast? = some y → y ∈ l := by
  intro l
  induction l with
  | nil => intro y h; simp [List.getLast?] at h
  | cons a r ih =>
    intro y h
    cases r with
    | nil =>
      simp only [List.getLast?_singleton, Option.some_inj] at h
      simp [h]
    | cons b r' =>
      rw [List.getLast?_cons_cons] at h
      exact List.mem_cons_of_mem a (ih h)

theorem pwLtKey_last_max {f : Nat → List Label} :
    ∀ {l : List Nat} {y : Nat}, pwLtKey f l = true → l.getLast? = some y →
      ∀ x ∈ l, x = y ∨ dnameCompare (f x) (f y) = .lt := by
  intro l
  induction l with
  | nil => intro y _ h; simp [List.getLast?] at h
  | cons a r ih =>
    intro y hpw hlast x hx
    cases r with
    | nil =>
      simp only [List.getLast?_singleton, Option.some_inj] at hlast
      simp only [List.mem_singleton] at hx
      exact Or.inl (hx.trans hlast)
    | cons b r' =>
      rw [List.getLast?_cons_cons] at hlast
      rcases List.mem_cons.mp hx with hxa | hxr
      · subst hxa
        exact Or.inr (pwLtKey_head hpw (getLast?_mem hlast))
      · exact ih (pwLtKey_tail hpw) hlast x hxr

theorem pwLtKey_mem_eq {f : Nat → List Label} :
    ∀ {l : List Nat}, pwLtKey f l = true →
      ∀ {a b : Nat}, a ∈ l → b ∈ l → f a = f b → a = b := by
  intro l
  induction l with
  | nil => intro _ a b ha; simp at ha
  | cons c r ih =>
    intro hpw a b ha hb hf
    rcases List.mem_cons.mp ha with ha' | ha' <;> rcases List.mem_cons.mp hb with hb' | hb'
    · exact ha'.trans hb'.symm
    · subst ha'
      have := pwLtKey_head hpw hb'
      rw [hf, dnameCompare_self] at this
      cases this
    · subst hb'
      have := pwLtKey_head hpw ha'
      rw [hf, dnameCompare_self] at this
      cases this
    · exact ih (pwLtKey_tail hpw) ha' hb' hf

/-- In a list with strictly increasing keys, every element is distinct from
every element of any suffix that it precedes; used to know that a node id
occurs only once in the tree. -/
theorem pwLtKey_nodup {f : Nat → List Label} {l : List Nat}
    (h : pwLtKey f l = true) : l.Nodup := by
  induction l with
  | nil => exact List.nodup_nil
  | cons a r ih =>
    refine List.nodup_cons.mpr ⟨?_, ih (pwLtKey_tail h)⟩
    intro hmem
    have := pwLtKey_head h hmem
    rw [dnameCompare_self] at this
    cases this

/-- An element of a nonempty list with the largest measure exists. -/
theorem exists_max_measure (g : Nat → Nat) :
    ∀ {l : List Nat}, l ≠ [] → ∃ c ∈ l, ∀ q ∈ l, g q ≤ g c := by
  intro l
  induction l with
  | nil => intro h; exact absurd rfl h
  | cons a r ih =>
    intro _
    cases r with
    | nil =>
      refine ⟨a, List.mem_singleton_self a, ?_⟩
      intro q hq
      simp only [List.mem_singleton] at hq
      simp [hq]
    | cons b r' =>
      obtain ⟨c, hc, hmax⟩ := ih (by simp)
      by_cases hac : g a ≤ g c
      · refine ⟨c, List.mem_cons_of_mem a hc, ?_⟩
        intro q hq
        rcases List.mem_cons.mp hq with h' | h'
        · subst h'; exact hac
        · exact hmax q h'
      · refine ⟨a, List.mem_cons_self a _, ?_⟩
        intro q hq
        rcases List.mem_cons.mp hq with h' | h'
        · subst h'; exact Nat.le_refl _
        · exact Nat.le_trans (hmax q h') (Nat.le_of_not_le hac)

/-- Setting a list entry to the value it already holds is a no-op. -/
theorem list_set_getD_self {α : Type} [Inhabited α] :
    ∀ (l : List α) (i : Nat), l.set i (l.getD i default) = l := by
  intro l
  induction l with
  | nil => intro i; rfl
  | cons a r ih =>
    intro i
    cases i with
    | zero => rfl
    | succ i' => simp only [List.set_cons_succ, List.getD_cons_succ, ih]

/- ### The zone data model (dnslib zone.c) -/

/-- An RDATA item (`dnslib_rdata_item_t`): either a reference to a domain
name object in the zone's dname store (pointer identity is index
identity), or raw bytes. -/
inductive RdataItem
  | dname (did : Nat)
  | raw (bytes : List Nat)
  deriving DecidableEq

/-- A domain name object (`dnslib_dname_t`): immutable labels plus the
mutable weak back-link `node` that `dnslib_zone_adjust_rdata_item`
overwrites. -/
structure DnameObj where
  labels : List Label
  node : Option Nat
  deriving DecidableEq

/-- An RRSet (`dnslib_rrset_t`): type, the RDATA list, and the optional
RRSIG RRSet, kept as its RDATA list (its type is RRSIG = 46). -/
structure RRSetD where
  rtype : Nat
  rdatas : List (List RdataItem)
  rrsigs : Option (List (List RdataItem))
  deriving DecidableEq

/-- A zone node (`dnslib_node_t`): owner dname (index into the dname
store), weak parent link, RRSets, the two flags set by the adjust pass,
and the NSEC3 cross-link. -/
structure Node where
  owner : Nat
  parent : Option Nat
  rrsets : List RRSetD
  delegPoint : Bool
  nonAuth : Bool
  nsec3Node : Option Nat
  deriving DecidableEq

instance : Inhabited Node := ⟨⟨0, none, [], false, false, none⟩⟩

instance : Inhabited DnameObj := ⟨⟨[], none⟩⟩

/-- NSEC3 parameters (`dnslib_nsec3_params_t`); `algorithm = 0` means
NSEC3 is not enabled (`dnslib_zone_nsec3_enabled`). -/
structure Nsec3Params where
  algorithm : Nat
  flags : Nat
  iterations : Nat
  saltLength : Nat
  deriving DecidableEq

/-- A zone (`dnslib_zone_t`): the dname store and node store (heap
identity by index), the plain tree and the NSEC3 tree as lists of node
ids in canonical owner order, the apex node id, and the NSEC3 params. -/
structure Zone where
  dnames : List DnameObj
  nodes : List Node
  tree : List Nat
  nsec3Tree : List Nat
  apex : Nat
  nsec3Params : Nsec3Params
  deriving DecidableEq

/-- Owner labels of a node id. -/
def ownerLabels (z : Zone) (nid : Nat) : List Label :=
  (z.dnames.getD (z.nodes.getD nid default).owner default).labels

/-- Labels of a dname object. -/
def labelsOf (z : Zone) (did : Nat) : List Label :=
  (z.dnames.getD did default).labels

/-- The `node` back-link of a dname object. -/
def dnodeOf (z : Zone) (did : Nat) : Option Nat :=
  (z.dnames.getD did default).node

/-- `dnslib_node_rrset(node, type)`. -/
def nodeRrset (z : Zone) (nid : Nat) (t : Nat) : Option RRSetD :=
  (z.nodes.getD nid default).rrsets.find? (fun rs => rs.rtype == t)

/-- Number of RRSets in a node (`dnslib_node_rrset_count`). -/
def nodeRrsetCount (z : Zone) (nid : Nat) : Nat :=
  (z.nodes.getD nid default).rrsets.length

/-- dnslib error codes used by the embedded functions. -/
inductive DnslibErr
  | eok
  | ebadarg
  | ebadzone
  deriving DecidableEq

/-- `dnslib_zone_check_node`: the node must belong to the zone, i.e. its
owner must be a subdomain of the apex owner (the NULL-argument cases of
the C function cannot arise in the embedding).  The subdomain test is
modelled from the spec: a name is a subdomain of another iff it equals it
or ends with it on label boundaries. -/
def dnslib_zone_check_node (z : Zone) (nid : Nat) : DnslibErr :=
  if labPre (ownerLabels z z.apex) (ownerLabels z nid) then .eok else .ebadzone

/-- Modelled from the spec (`insert(node)`, tree keyed by canonical
order): insert a node id at its canonical position in the tree list. -/
def insertByOwner (z : Zone) (nid : Nat) : List Nat → List Nat
  | [] => [nid]
  | m :: r =>
    if dnameCompare (ownerLabels z nid) (ownerLabels z m) = .lt then nid :: m :: r
    else m :: insertByOwner z nid r

/-- `dnslib_zone_add_node`: check the node with `dnslib_zone_check_node`;
on failure return the error with the zone untouched, otherwise insert the
node into the plain tree (`TREE_INSERT`).  The optional hash-table
insertion (`USE_HASH_TABLE`) is not modelled. -/
def dnslib_zone_add_node (z : Zone) (nid : Nat) : DnslibErr × Zone :=
  match dnslib_zone_check_node z nid with
  | .eok => (.eok, { z with tree := insertByOwner z nid z.tree })
  | e => (e, z)

theorem insertByOwner_mem {z : Zone} {nid m : Nat} {l : List Nat}
    (h : m ∈ insertByOwner z nid l) : m = nid ∨ m ∈ l := by
  induction l with
  | nil =>
    simp only [insertByOwner, List.mem_singleton] at h
    exact Or.inl h
  | cons a r ih =>
    simp only [insertByOwner] at h
    by_cases hc : dnameCompare (ownerLabels z nid) (ownerLabels z a) = .lt
    · rw [if_pos hc] at h
      rcases List.mem_cons.mp h with h' | h'
      · exact Or.inl h'
      · exact Or.inr h'
    · rw [if_neg hc] at h
      rcases List.mem_cons.mp h with h' | h'
      · exact Or.inr (by simp [h'])
      · rcases ih h' with h'' | h''
        · exact Or.inl h''
        · exact Or.inr (List.mem_cons_of_mem a h'')

/-- Claim C8: `dnslib_zone_add_node` rejects, with a bad-zone error and an
unchanged zone, any node whose owner is not a subdomain of the apex
owner; consequently the property that every tree node's owner is a
subdomain of the apex owner is preserved by every insertion. -/
theorem zone_add_node_subdomain_invariant (z : Zone) (nid : Nat) :
    (labPre (ownerLabels z z.apex) (ownerLabels z nid) = false →
      dnslib_zone_add_node z nid = (.ebadzone, z)) ∧
    ((∀ m ∈ z.tree, labPre (ownerLabels z z.apex) (ownerLabels z m) = true) →
      ∀ m ∈ (dnslib_zone_add_node z nid).2.tree,
        labPre (ownerLabels (dnslib_zone_add_node z nid).2 (dnslib_zone_add_node z nid).2.apex)
          (ownerLabels (dnslib_zone_add_node z nid).2 m) = true) := by
  constructor
  · intro h
    simp [dnslib_zone_add_node, dnslib_zone_check_node, h]
  · intro hinv m hm
    by_cases hc : labPre (ownerLabels z z.apex) (ownerLabels z nid) = true
    · simp only [dnslib_zone_add_node, dnslib_zone_check_node, hc, if_pos] at hm ⊢
      have hm' := insertByOwner_mem hm
      have howner : ∀ k, ownerLabels { z with tree := insertByOwner z nid z.tree } k
          = ownerLabels z k := by
        intro k; rfl
      rcases hm' with h' | h'
      · subst h'
        simpa [howner] using hc
      · simpa [howner] using hinv m h'
    · have hc' : labPre (ownerLabels z z.apex) (ownerLabels z nid) = false :=
        Bool.eq_false_iff.mpr hc
      simp only [dnslib_zone_add_node, dnslib_zone_check_node, hc', Bool.false_eq_true,
        if_false] at hm ⊢
      exact hinv m hm

/-- Witness for C8: a concrete zone and node on which both conjuncts of
the theorem evaluate: the apex owner is `[1]`, node 1 has owner `[2,5]`
(not a subdomain) and is rejected, node 2 has owner `[1,5]` and keeps the
invariant. -/
def zoneC8 : Zone :=
  { dnames := [⟨[1], some 0⟩, ⟨[2, 5], none⟩, ⟨[1, 5], none⟩]
    nodes := [⟨0, none, [⟨6, [[RdataItem.raw [1]]], none⟩], false, false, none⟩,
              ⟨1, none, [], false, false, none⟩,
              ⟨2, some 0, [], false, false, none⟩]
    tree := [0]
    nsec3Tree := []
    apex := 0
    nsec3Params := ⟨0, 0, 0, 0⟩ }

theorem zone_add_node_subdomain_invariant_witness :
    dnslib_zone_add_node zoneC8 1 = (.ebadzone, zoneC8) ∧
    (∀ m ∈ (dnslib_zone_add_node zoneC8 2).2.tree,
      labPre (ownerLabels (dnslib_zone_add_node zoneC8 2).2 (dnslib_zone_add_node zoneC8 2).2.apex)
        (ownerLabels (dnslib_zone_add_node zoneC8 2).2 m) = true) :=
  ⟨(zone_add_node_subdomain_invariant zoneC8 1).1 (by decide),
   (zone_add_node_subdomain_invariant zoneC8 2).2 (by decide)⟩

/- ### The packet model: knot_pkt_put (libknot/packet/pkt.c) -/

/-- The abstract state of a packet under serialisation (`knot_pkt_t`):
the written size, the buffer capacity, the space reserved for TSIG, the
EDNS OPT reservation (`knot_pkt_have_edns` / `opt_rr.size`), the TC bit
of the header, the list of RRSets already put (identity = the pointer
stored in `pkt->rr[]`, embedded as a numeric id; its length is
`rrset_count`), the three header section counters, and the current
section.  The slot `pkt->rr[rrset_count]` written before the duplicate
check and the scratch `rr_info` entry are not part of the abstract state:
they only become observable once `rrset_count` is incremented. -/
structure Pkt where
  size : Nat
  maxSize : Nat
  tsigSize : Nat
  haveEdns : Bool
  optSize : Nat
  tc : Bool
  rrs : List Nat
  ancount : Nat
  nscount : Nat
  arcount : Nat
  current : Nat
  deriving DecidableEq

/-- An RRSet as seen by `knot_pkt_put` (`knot_rrset_t`): its identity
(the pointer), the wire size `knot_rrset_to_wire` would produce for it in
this packet, and its number of RRs (the `rr_count` reported back). -/
structure KRRSet where
  id : Nat
  wsize : Nat
  nrrs : Nat
  deriving DecidableEq

/-- The two `knot_pkt_put` flags relevant here (`KNOT_PF_CHECKDUP`,
`KNOT_PF_NOTRUNC`). -/
structure PutFlags where
  checkdup : Bool
  notrunc : Bool
  deriving DecidableEq

/-- Return values of `knot_pkt_put` in the embedding. -/
inductive PutResult
  | eok
  | espace
  deriving DecidableEq

/-- `pkt_remaining`: capacity minus written size minus the TSIG and OPT
reservations (the C computation on `uint16_t`; the embedding uses
truncated natural subtraction). -/
def pktRemaining (p : Pkt) : Nat :=
  p.maxSize - p.size - p.tsigSize - (if p.haveEdns then p.optSize else 0)

/-- `pkt_rr_wirecount_add` on the current section. -/
def pktCountAdd (p : Pkt) (n : Nat) : Pkt :=
  if p.current = 0 then { p with ancount := p.ancount + n }
  else if p.current = 1 then { p with nscount := p.nscount + n }
  else { p with arcount := p.arcount + n }

/-- `knot_pkt_put`: records the RR at the free slot (not abstractly
observable), then: duplicate check under `KNOT_PF_CHECKDUP` using
`pkt_contains` with `KNOT_RRSET_COMPARE_PTR` (pointer equality = id
equality) returning success without touching the packet; otherwise
serialise with `knot_rrset_to_wire` — modelled from the spec as writing
`rr.wsize` bytes when they fit in `pkt_remaining` and failing with
NOSPACE otherwise — and on NOSPACE set the TC header bit unless
`KNOT_PF_NOTRUNC` is set, returning the error in both cases.  On success
the packet grows only when at least one RR was added. -/
def knot_pkt_put (p : Pkt) (compress : Nat) (rr : KRRSet) (fl : PutFlags) :
    PutResult × Pkt :=
  let _ := compress
  if fl.checkdup && p.rrs.contains rr.id then
    (.eok, p)
  else
    let maxlen := pktRemaining p
    if rr.wsize ≤ maxlen then
      if rr.nrrs > 0 then
        (.eok, pktCountAdd { p with rrs := p.rrs ++ [rr.id], size := p.size + rr.wsize } rr.nrrs)
      else
        (.eok, p)
    else
      if fl.notrunc then (.espace, p)
      else (.espace, { p with tc := true })

/-- Concrete packet and RRSet for the C3 counterexample: 8 bytes remain
but the RRSet needs 100. -/
def pktC3 : Pkt :=
  { size := 12, maxSize := 20, tsigSize := 0, haveEdns := false, optSize := 0,
    tc := false, rrs := [], ancount := 0, nscount := 0, arcount := 0, current := 0 }

def rrC3 : KRRSet := { id := 7, wsize := 100, nrrs := 1 }

/-- Counterexample to claim C3: on NOSPACE without NOTRUNC the call sets
TC and drops the RR, but it does NOT succeed silently — `knot_pkt_put`
returns the NOSPACE error (`return ret;` after setting TC), so "the call
does not report failure" is false. -/
theorem pkt_put_nospace_reports_error :
    (knot_pkt_put pktC3 0 rrC3 ⟨false, false⟩).1 ≠ PutResult.eok ∧
    (knot_pkt_put pktC3 0 rrC3 ⟨false, false⟩).2.tc = true ∧
    (knot_pkt_put pktC3 0 rrC3 ⟨false, false⟩).2.rrs = pktC3.rrs := by
  decide

/-- Claim C3 as amended: when the RRSet does not fit the remaining space,
`knot_pkt_put` drops the RR (the packet's RR list, size and counts are
unchanged) and, unless NOTRUNC is set, sets the TC header flag; in both
cases the NOSPACE error is returned to the caller (it is the caller that
continues without treating it as a failure), and with NOTRUNC set TC is
not set. -/
theorem pkt_put_nospace_behaviour (p : Pkt) (compress : Nat) (rr : KRRSet)
    (fl : PutFlags)
    (hdup : fl.checkdup = false ∨ p.rrs.contains rr.id = false)
    (hsp : pktRemaining p < rr.wsize) :
    (fl.notrunc = false →
      knot_pkt_put p compress rr fl = (.espace, { p with tc := true })) ∧
    (fl.notrunc = true →
      knot_pkt_put p compress rr fl = (.espace, p)) := by
  have hfit : ¬ rr.wsize ≤ pktRemaining p := Nat.not_le_of_lt hsp
  have hdup' : (fl.checkdup && p.rrs.contains rr.id) = false := by
    rcases hdup with h | h
    · rw [h, Bool.false_and]
    · rw [h, Bool.and_false]
  constructor
  · intro hn
    simp only [knot_pkt_put, hdup', Bool.false_eq_true, if_false, hfit, hn]
  · intro hn
    simp only [knot_pkt_put, hdup', Bool.false_eq_true, if_false, hfit, hn,
      if_true]

theorem pkt_put_nospace_behaviour_witness :
    knot_pkt_put pktC3 0 rrC3 ⟨false, true⟩ = (.espace, pktC3) :=
  (pkt_put_nospace_behaviour pktC3 0 rrC3 ⟨false, true⟩ (Or.inl rfl) (by decide)).2 rfl

/-- Claim C9: with `KNOT_PF_CHECKDUP` set and the RRSet already present
in the packet by pointer, `knot_pkt_put` returns KNOT_EOK and the packet
is completely unchanged (no wire bytes, no size change, no rrset_count
change, no header count change). -/
theorem pkt_put_checkdup_noop (p : Pkt) (compress : Nat) (rr : KRRSet)
    (fl : PutFlags) (hcd : fl.checkdup = true)
    (hmem : p.rrs.contains rr.id = true) :
    knot_pkt_put p compress rr fl = (.eok, p) := by
  simp only [knot_pkt_put, hcd, hmem, Bool.and_self, if_true]

def pktC9 : Pkt :=
  { size := 40, maxSize := 512, tsigSize := 0, haveEdns := false, optSize := 0,
    tc := false, rrs := [3, 7], ancount := 2, nscount := 0, arcount := 0, current := 0 }

theorem pkt_put_checkdup_noop_witness :
    knot_pkt_put pktC9 0 ⟨7, 30, 1⟩ ⟨true, false⟩ = (.eok, pktC9) :=
  pkt_put_checkdup_noop pktC9 0 ⟨7, 30, 1⟩ ⟨true, false⟩ rfl (by decide)

/- ### The packet parser: knot_pkt_parse_payload (libknot/packet/pkt.c) -/

/-- An RR as it sits on the wire, after the abstraction of
`knot_pkt_rr_from_wire` (which lives in pkt.c but leans on dname/rrset
parsing modelled from the spec): `hdrKey` abstracts the owner name and
class (so two RRs merge into one RRSet iff they share `hdrKey` and
`rtype` — `knot_rrset_equal` with `KNOT_RRSET_COMPARE_HEADER`), `wireOk`
says whether the RR's bytes parse (owner name and RDATA well-formed), and
`tsigOk` models `tsig_rdata_is_ok` for TSIG RRs. -/
structure PRR where
  hdrKey : Nat
  rtype : Nat
  wireOk : Bool
  tsigOk : Bool
  deriving DecidableEq

instance : Inhabited PRR := ⟨⟨0, 0, false, false⟩⟩

/-- A wire message past the question section: the three header counts and
the RR encodings in wire order, plus `trailing` bytes after the last RR
encoding that do not form a valid RR (`pkt->parsed < pkt->size` if
nonzero). -/
structure PWire where
  ancount : Nat
  nscount : Nat
  arcount : Nat
  rrs : List PRR
  trailing : Nat
  deriving DecidableEq

/-- Errors returned by the parser in the embedding (`KNOT_EMALF`,
`KNOT_EFEWDATA`). -/
inductive KErr
  | emalf
  | efewdata
  deriving DecidableEq

/-- Parser state threaded through `knot_pkt_parse_rr`: remaining RR
encodings and trailing byte count (together the unparsed wire region),
the RRSets appended so far (`pkt->rr`, identity = position), the current
section's appended count (`pkt->sections[pkt->current].count`), and the
TSIG RRSet handle (`pkt->tsig_rr`) as an index into `rrsets`. -/
structure PSt where
  rem : List PRR
  trailing : Nat
  rrsets : List PRR
  curCount : Nat
  tsigIdx : Option Nat
  deriving DecidableEq

/-- `knot_pkt_parse_rr`: fail with EFEWDATA when the whole wire is
consumed, with EMALF when the next bytes do not parse as an RR; otherwise
merge the RR into an existing same-header RRSet
(`knot_pkt_merge_rr`, skipped under `KNOT_PACKET_DUPL_NO_MERGE`) or
append it, bumping the section count, and check the RR constraints: a
second TSIG or a TSIG with bad RDATA is EMALF; an OPT RR is converted
with `knot_edns_new_from_rr`, modelled from the spec as a plain
conversion that succeeds (the C function in pkt.c performs no duplicate
check for OPT). -/
def knot_pkt_parse_rr (noMerge : Bool) (st : PSt) : Except KErr PSt :=
  match st.rem with
  | [] => if st.trailing > 0 then .error .emalf else .error .efewdata
  | rr :: rest =>
    if rr.wireOk = false then .error .emalf
    else
      let st1 : PSt := { st with rem := rest }
      if noMerge = false &&
          st1.rrsets.any (fun q => q.hdrKey == rr.hdrKey && q.rtype == rr.rtype) then
        .ok st1
      else
        let st2 : PSt :=
          { st1 with rrsets := st1.rrsets ++ [rr], curCount := st1.curCount + 1 }
        if rr.rtype = 250 then
          if st2.tsigIdx.isSome then .error .emalf
          else if rr.tsigOk = false then .error .emalf
          else .ok { st2 with tsigIdx := some (st2.rrsets.length - 1) }
        else .ok st2

/-- `knot_pkt_parse_section`: parse as many RRs as the section's header
count demands. -/
def knot_pkt_parse_section (noMerge : Bool) (st : PSt) : Nat → Except KErr PSt
  | 0 => .ok st
  | n + 1 =>
    match knot_pkt_parse_rr noMerge st with
    | .error e => .error e
    | .ok st' => knot_pkt_parse_section noMerge st' n

/-- The result of a successful payload parse, with the data the TSIG
placement check uses: the RRSets, the TSIG index, and the ADDITIONAL
section's start (`pkt->sections[KNOT_ADDITIONAL].rr` watermark) and
appended count. -/
structure ParsedOut where
  rrsets : List PRR
  tsigIdx : Option Nat
  arStart : Nat
  arCount : Nat
  deriving DecidableEq

/-- The check `TSIG must be last record of AR if present` from
`knot_pkt_parse_payload`: with a TSIG present, EMALF iff the ADDITIONAL
section is nonempty and its last RRSet is not the TSIG (pointer
comparison = index comparison). -/
def tsigMisplaced (tsigIdx : Option Nat) (arStart arCount : Nat) : Bool :=
  match tsigIdx with
  | some t => decide (arCount > 0) && !(t == arStart + arCount - 1)
  | none => false

/-- `knot_pkt_parse_payload`: parse the ANSWER, AUTHORITY and ADDITIONAL
sections per the header counts (each `knot_pkt_begin` resets the section
watermark and count), then enforce the TSIG placement check and reject
trailing garbage (`pkt->parsed < pkt->size`). -/
def knot_pkt_parse_payload (w : PWire) (noMerge : Bool) : Except KErr ParsedOut :=
  match knot_pkt_parse_section noMerge ⟨w.rrs, w.trailing, [], 0, none⟩ w.ancount with
  | .error e => .error e
  | .ok stA =>
    match knot_pkt_parse_section noMerge { stA with curCount := 0 } w.nscount with
    | .error e => .error e
    | .ok stU =>
      match knot_pkt_parse_section noMerge { stU with curCount := 0 } w.arcount with
      | .error e => .error e
      | .ok stR =>
        if tsigMisplaced stR.tsigIdx stU.rrsets.length stR.curCount then .error .emalf
        else if stR.rem.length ≠ 0 ∨ stR.trailing ≠ 0 then .error .emalf
        else .ok ⟨stR.rrsets, stR.tsigIdx, stU.rrsets.length, stR.curCount⟩

/-- A wire message carrying two OPT pseudo-RRs in ADDITIONAL. -/
def wireC4 : PWire :=
  { ancount := 0, nscount := 0, arcount := 2,
    rrs := [⟨1, 41, true, true⟩, ⟨2, 41, true, true⟩], trailing := 0 }

/-- Counterexample to claim C4: `knot_pkt_parse_rr` performs no
uniqueness check for OPT RRs (unlike TSIG), so a message containing two
OPT pseudo-RRs parses successfully instead of being rejected as
MALFORMED. -/
theorem parse_accepts_two_opts :
    wireC4.rrs.countP (fun r => r.rtype == 41) = 2 ∧
    (knot_pkt_parse_payload wireC4 false).isOk = true := by
  decide

theorem parse_section_all_ok (noMerge : Bool) :
    ∀ (n : Nat) (st : PSt),
      (∀ r ∈ st.rem, r.wireOk = true ∧ r.rtype ≠ 250) →
      st.tsigIdx = none → n ≤ st.rem.length →
      ∃ st', knot_pkt_parse_section noMerge st n = .ok st' ∧
        st'.rem = st.rem.drop n ∧ st'.trailing = st.trailing ∧
        st'.tsigIdx = none := by
  intro n
  induction n with
  | zero =>
    intro st _ hts _
    exact ⟨st, rfl, rfl, rfl, hts⟩
  | succ n' ih =>
    intro st hok hts hlen
    match hrem : st.rem with
    | [] => rw [hrem] at hlen; simp at hlen
    | rr :: rest =>
      have hrr := hok rr (by rw [hrem]; exact List.mem_cons_self _ _)
      have hrest : ∀ r ∈ rest, r.wireOk = true ∧ r.rtype ≠ 250 := by
        intro r hr
        exact hok r (by rw [hrem]; exact List.mem_cons_of_mem _ hr)
      have hone : ∃ st1, knot_pkt_parse_rr noMerge st = .ok st1 ∧
          st1.rem = rest ∧ st1.trailing = st.trailing ∧ st1.tsigIdx = none := by
        simp only [knot_pkt_parse_rr, hrem, hrr.1, Bool.true_eq_false, decide_False,
          Bool.false_eq_true, if_false]
        by_cases hmerge : (decide (noMerge = false) &&
            st.rrsets.any fun q => q.hdrKey == rr.hdrKey && q.rtype == rr.rtype) = true
        · rw [if_pos hmerge]
          exact ⟨_, rfl, rfl, rfl, hts⟩
        · rw [if_neg hmerge, if_neg hrr.2]
          exact ⟨_, rfl, rfl, rfl, hts⟩
      obtain ⟨st1, h1, h1rem, h1tr, h1ts⟩ := hone
      have hlen' : n' ≤ st1.rem.length := by
        rw [h1rem]
        rw [hrem] at hlen
        simpa using Nat.le_of_succ_le_succ hlen
      obtain ⟨st', h2, h2rem, h2tr, h2ts⟩ :=
        ih st1 (by rw [h1rem]; exact hrest) h1ts hlen'
      refine ⟨st', ?_, ?_, h2tr.trans h1tr, h2ts⟩
      · simp only [knot_pkt_parse_section, h1]
        exact h2
      · rw [h2rem, h1rem]
        rfl

/-- Claim C4 as amended: the parser enforces no bound on the number of
OPT pseudo-RRs.  Any message whose header counts match its RR encodings,
whose RRs all parse and contain no TSIG, parses successfully no matter
how many OPT RRs it contains (each OPT is converted into `pkt->opt_rr`
in turn); multiple OPTs are not rejected as MALFORMED. -/
theorem parse_payload_ignores_opt_count (w : PWire) (noMerge : Bool)
    (hlen : w.rrs.length = w.ancount + w.nscount + w.arcount)
    (htr : w.trailing = 0)
    (hok : ∀ r ∈ w.rrs, r.wireOk = true ∧ r.rtype ≠ 250) :
    ∃ out, knot_pkt_parse_payload w noMerge = .ok out := by
  have h1 := parse_section_all_ok noMerge w.ancount ⟨w.rrs, w.trailing, [], 0, none⟩
    hok rfl (by simp [hlen]; omega)
  obtain ⟨stA, hA, hArem, hAtr, hAts⟩ := h1
  have hokA : ∀ r ∈ (PSt.mk stA.rem stA.trailing stA.rrsets 0 stA.tsigIdx).rem,
      r.wireOk = true ∧ r.rtype ≠ 250 := by
    intro r hr
    simp only at hr
    rw [hArem] at hr
    exact hok r (List.mem_of_mem_drop hr)
  have h2 := parse_section_all_ok noMerge w.nscount { stA with curCount := 0 }
    hokA (by simpa using hAts) (by simp only; rw [hArem]; simp [hlen]; omega)
  obtain ⟨stU, hU, hUrem, hUtr, hUts⟩ := h2
  have hokU : ∀ r ∈ (PSt.mk stU.rem stU.trailing stU.rrsets 0 stU.tsigIdx).rem,
      r.wireOk = true ∧ r.rtype ≠ 250 := by
    intro r hr
    simp only at hr
    rw [hUrem] at hr
    simp only at hr
    rw [hArem] at hr
    exact hok r (List.mem_of_mem_drop (List.mem_of_mem_drop hr))
  have h3 := parse_section_all_ok noMerge w.arcount { stU with curCount := 0 }
    hokU (by simpa using hUts)
    (by
      simp only
      rw [hUrem]
      simp only
      rw [hArem]
      simp only [List.length_drop, hlen]
      omega)
  obtain ⟨stR, hR, hRrem, hRtr, hRts⟩ := h3
  refine ⟨⟨stR.rrsets, stR.tsigIdx, stU.rrsets.length, stR.curCount⟩, ?_⟩
  simp only [knot_pkt_parse_payload, hA, hU, hR]
  have hmis : tsigMisplaced stR.tsigIdx stU.rrsets.length stR.curCount = false := by
    rw [hRts]; rfl
  rw [hmis]
  simp only [Bool.false_eq_true, if_false]
  have hrem0 : stR.rem.length = 0 := by
    rw [hRrem]
    simp only
    rw [hUrem]
    simp only
    rw [hArem]
    simp [hlen]
  have htr0 : stR.trailing = 0 := by
    rw [hRtr]
    simp only
    rw [hUtr]
    simp only
    rw [hAtr]
    exact htr
  have hcond : ¬ (stR.rem.length ≠ 0 ∨ stR.trailing ≠ 0) := by
    push_neg
    exact ⟨hrem0, htr0⟩
  rw [if_neg hcond]

theorem parse_payload_ignores_opt_count_witness :
    ∃ out, knot_pkt_parse_payload wireC4 false = .ok out :=
  parse_payload_ignores_opt_count wireC4 false (by decide) rfl (by decide)

/- ### Zone lookups: dnslib_zone_find_in_tree / dnslib_zone_find_dname -/

/-- Modelled from the spec (`find_less_equal(name)` on the canonical-order
tree): whether an exact match exists, the node at-or-before `name`, and
the node strictly before `name` (none when no tree owner is smaller; the
code comments note this happens only when the match is exact). -/
def treeFindLessEqual (z : Zone) (name : List Label) :
    Bool × Option Nat × Option Nat :=
  (z.tree.any (fun nid => decide (ownerLabels z nid = name)),
   (z.tree.filter (fun nid => !decide (dnameCompare (ownerLabels z nid) name = .gt))).getLast?,
   (z.tree.filter (fun nid => decide (dnameCompare (ownerLabels z nid) name = .lt))).getLast?)

/-- Modelled from the spec (`previous(node)`: predecessor wrap, the tree
is circular for canonical-order previous queries): the element before
`nid` in the tree list, wrapping to the last element for the first. -/
def prevInList (x : Nat) : List Nat → Option Nat
  | a :: b :: r => if b = x then some a else prevInList x (b :: r)
  | _ => none

/-- `dnslib_node_previous` on the canonical tree order. -/
def nodePrevious (z : Zone) (nid : Nat) : Option Nat :=
  if z.tree.head? = some nid then z.tree.getLast? else prevInList nid z.tree

/-- Result of `dnslib_zone_find_in_tree`. -/
structure FindInTreeOut where
  exact : Bool
  node : Option Nat
  previous : Option Nat
  deriving DecidableEq

/-- `dnslib_zone_find_in_tree`: run `TREE_FIND_LESS_EQUAL`; when it
returned no strictly-previous node the found node is leftmost and its
circular previous is used; otherwise the previous node is the returned
one unless it is an empty non-terminal (zero RRSets), in which case one
more step back is taken. -/
def dnslib_zone_find_in_tree (z : Zone) (name : List Label) : FindInTreeOut :=
  let r := treeFindLessEqual z name
  match r.2.2 with
  | none => ⟨r.1, r.2.1, r.2.1.bind (nodePrevious z)⟩
  | some p =>
    ⟨r.1, r.2.1, if nodeRrsetCount z p = 0 then nodePrevious z p else some p⟩

/-- Return statuses of `dnslib_zone_find_dname`
(`DNSLIB_ZONE_NAME_FOUND`, `DNSLIB_ZONE_NAME_NOT_FOUND`,
`DNSLIB_EBADZONE`). -/
inductive ZoneFindResult
  | nameFound
  | nameNotFound
  | badZone
  deriving DecidableEq

/-- Result record of `dnslib_zone_find_dname` (`*node`,
`*closest_encloser`, `*previous`); fields the C code leaves unset are
`none`. -/
structure FindDnameOut where
  result : ZoneFindResult
  node : Option Nat
  closest : Option Nat
  previous : Option Nat
  deriving DecidableEq

/-- The closest-encloser walk of `dnslib_zone_find_dname`: starting from
the at-or-before node, while the (pre-computed) number of matched labels
is smaller than the current owner's label count, step to the parent.
The C loop asserts the parent pointer; a missing parent or an exhausted
fuel (impossible in a well-formed zone) yields `none`. -/
def ceWalk (z : Zone) (m : Nat) : Nat → Nat → Option Nat
  | 0, _ => none
  | fuel + 1, nid =>
    if m < (ownerLabels z nid).length then
      match (z.nodes.getD nid default).parent with
      | some p => ceWalk z m fuel p
      | none => none
    else some nid

/-- `dnslib_zone_find_dname`: equality with the apex owner short-cuts to
NAME_FOUND with the apex as closest encloser (leaving `*previous`
unset); names out of the zone yield EBADZONE; otherwise the tree search
runs, and on a non-exact match the closest encloser is found by walking
`parent` links from the at-or-before node until its owner has no more
labels than it matches with the searched name. -/
def dnslib_zone_find_dname (z : Zone) (name : List Label) : FindDnameOut :=
  if dnameCompare name (ownerLabels z z.apex) = .eq then
    ⟨.nameFound, some z.apex, some z.apex, none⟩
  else if labPre (ownerLabels z z.apex) name = false then
    ⟨.badZone, none, none, none⟩
  else
    let r := dnslib_zone_find_in_tree z name
    match r.node with
    | none => ⟨.badZone, none, none, r.previous⟩
    | some nd =>
      if r.exact then ⟨.nameFound, some nd, some nd, r.previous⟩
      else
        let m := matchedLabels (ownerLabels z nd) name
        ⟨.nameNotFound, some nd, ceWalk z m ((ownerLabels z nd).length + 1) nd,
         r.previous⟩

/-- Well-formedness of the parent link of one node: the apex has no
parent; every other tree node's parent is the node, present in the tree,
whose owner is the longest proper prefix (closest existing ancestor,
spec section 3: "parent — weak (closest ancestor present in the
tree)"). -/
def parentOk (z : Zone) (nid : Nat) : Bool :=
  if nid = z.apex then (z.nodes.getD nid default).parent == none
  else
    match (z.nodes.getD nid default).parent with
    | none => false
    | some p =>
      decide (p ∈ z.tree) && labPre (ownerLabels z p) (ownerLabels z nid) &&
      decide ((ownerLabels z p).length < (ownerLabels z nid).length) &&
      z.tree.all (fun q =>
        !(labPre (ownerLabels z q) (ownerLabels z nid)) ||
        decide (ownerLabels z q = ownerLabels z nid) ||
        decide ((ownerLabels z q).length ≤ (ownerLabels z p).length))

/-- Zone well-formedness: the plain tree is strictly sorted in canonical
owner order (so owners are unique), contains the apex, every tree node id
is a valid index into the node store, every tree owner is a subdomain of
the apex owner, and all parent links are correct. -/
def zoneWF (z : Zone) : Bool :=
  pwLtKey (ownerLabels z) z.tree &&
  decide (z.apex ∈ z.tree) &&
  z.tree.all (fun nid => decide (nid < z.nodes.length)) &&
  z.tree.all (fun nid => labPre (ownerLabels z z.apex) (ownerLabels z nid)) &&
  z.tree.all (parentOk z)

theorem zoneWF_sorted {z : Zone} (h : zoneWF z = true) :
    pwLtKey (ownerLabels z) z.tree = true := by
  simp only [zoneWF, Bool.and_eq_true] at h
  exact h.1.1.1.1

theorem zoneWF_apex_mem {z : Zone} (h : zoneWF z = true) : z.apex ∈ z.tree := by
  simp only [zoneWF, Bool.and_eq_true, decide_eq_true_eq] at h
  exact h.1.1.1.2

theorem zoneWF_valid {z : Zone} (h : zoneWF z = true) :
    ∀ nid ∈ z.tree, nid < z.nodes.length := by
  simp only [zoneWF, Bool.and_eq_true, List.all_eq_true, decide_eq_true_eq] at h
  exact h.1.1.2

theorem zoneWF_apex_sub {z : Zone} (h : zoneWF z = true) :
    ∀ nid ∈ z.tree, labPre (ownerLabels z z.apex) (ownerLabels z nid) = true := by
  simp only [zoneWF, Bool.and_eq_true, List.all_eq_true] at h
  exact h.1.2

theorem zoneWF_parent {z : Zone} (h : zoneWF z = true) :
    ∀ nid ∈ z.tree, nid ≠ z.apex →
      ∃ p, (z.nodes.getD nid default).parent = some p ∧ p ∈ z.tree ∧
        labPre (ownerLabels z p) (ownerLabels z nid) = true ∧
        (ownerLabels z p).length < (ownerLabels z nid).length ∧
        ∀ q ∈ z.tree, labPre (ownerLabels z q) (ownerLabels z nid) = true →
          ownerLabels z q ≠ ownerLabels z nid →
          (ownerLabels z q).length ≤ (ownerLabels z p).length := by
  intro nid hmem hne
  simp only [zoneWF, Bool.and_eq_true, List.all_eq_true] at h
  have hpo := h.2 nid hmem
  simp only [parentOk, if_neg hne] at hpo
  match hp : (z.nodes.getD nid default).parent with
  | none => rw [hp] at hpo; cases hpo
  | some p =>
    rw [hp] at hpo
    simp only [Bool.and_eq_true, decide_eq_true_eq, List.all_eq_true] at hpo
    refine ⟨p, rfl, hpo.1.1.1, hpo.1.1.2, hpo.1.2, ?_⟩
    intro q hq hqpre hqne
    have hall := hpo.2 q hq
    simp only [Bool.or_eq_true, Bool.not_eq_true', decide_eq_true_eq] at hall
    rcases hall with (h' | h') | h'
    · rw [hqpre] at h'
      exact absurd h' (by simp)
    · exact absurd h' hqne
    · exact h'

theorem zoneWF_apex_parent {z : Zone} (h : zoneWF z = true) :
    (z.nodes.getD z.apex default).parent = none := by
  have hmem := zoneWF_apex_mem h
  simp only [zoneWF, Bool.and_eq_true, List.all_eq_true] at h
  have hpo := h.2 z.apex hmem
  simp only [parentOk, if_pos rfl] at hpo
  exact eq_of_beq hpo

/- ### Facts about treeFindLessEqual under well-formedness -/

theorem getLast?_some_of_mem {l : List Nat} {x : Nat} (hx : x ∈ l) :
    ∃ y, l.getLast? = some y := by
  cases l with
  | nil => cases hx
  | cons a r =>
    clear hx
    induction r generalizing a with
    | nil => exact ⟨a, rfl⟩
    | cons b r' ih =>
      rw [List.getLast?_cons_cons]
      exact ih b

theorem find_in_tree_proj (z : Zone) (name : List Label) :
    (dnslib_zone_find_in_tree z name).node = (treeFindLessEqual z name).2.1 ∧
    (dnslib_zone_find_in_tree z name).exact = (treeFindLessEqual z name).1 := by
  simp only [dnslib_zone_find_in_tree]
  cases h : (treeFindLessEqual z name).2.2 <;> simp [h]

theorem treeFLE_exact_iff (z : Zone) (name : List Label) :
    (treeFindLessEqual z name).1 = true ↔ ∃ e ∈ z.tree, ownerLabels z e = name := by
  simp [treeFindLessEqual, List.any_eq_true]

theorem treeFLE_found_exact (z : Zone) (name : List Label)
    (hs : pwLtKey (ownerLabels z) z.tree = true)
    {e0 : Nat} (he0 : e0 ∈ z.tree) (hown : ownerLabels z e0 = name) :
    ∃ e, (treeFindLessEqual z name).2.1 = some e ∧ e ∈ z.tree ∧
      ownerLabels z e = name := by
  have hpred : (!decide (dnameCompare (ownerLabels z e0) name = .gt)) = true := by
    rw [hown, dnameCompare_self]
    simp
  have hmem : e0 ∈ z.tree.filter
      (fun nid => !decide (dnameCompare (ownerLabels z nid) name = .gt)) :=
    List.mem_filter.mpr ⟨he0, hpred⟩
  obtain ⟨y, hy⟩ := getLast?_some_of_mem hmem
  have hyf := getLast?_mem hy
  have hymem := (List.mem_filter.mp hyf).1
  have hypred := (List.mem_filter.mp hyf).2
  have hmax := pwLtKey_last_max (pwLtKey_filter _ hs) hy e0 hmem
  refine ⟨y, ?_, hymem, ?_⟩
  · simp only [treeFindLessEqual]
    exact hy
  · rcases hmax with h | h
    · rw [← h]; exact hown
    · rw [hown] at h
      have hgt := dnameCompare_swap.mp h
      simp [hgt] at hypred

theorem treeFLE_prev_spec (z : Zone) (name : List Label)
    (hs : pwLtKey (ownerLabels z) z.tree = true)
    {a0 : Nat} (ha0 : a0 ∈ z.tree)
    (halt : dnameCompare (ownerLabels z a0) name = .lt) :
    ∃ p, (treeFindLessEqual z name).2.2 = some p ∧ p ∈ z.tree ∧
      dnameCompare (ownerLabels z p) name = .lt ∧
      ∀ q ∈ z.tree, dnameCompare (ownerLabels z q) name = .lt →
        q = p ∨ dnameCompare (ownerLabels z q) (ownerLabels z p) = .lt := by
  have hmem : a0 ∈ z.tree.filter
      (fun nid => decide (dnameCompare (ownerLabels z nid) name = .lt)) :=
    List.mem_filter.mpr ⟨ha0, by simp [halt]⟩
  obtain ⟨y, hy⟩ := getLast?_some_of_mem hmem
  have hyf := getLast?_mem hy
  have hymem := (List.mem_filter.mp hyf).1
  have hypred := (List.mem_filter.mp hyf).2
  refine ⟨y, ?_, hymem, by simpa using hypred, ?_⟩
  · simp only [treeFindLessEqual]
    exact hy
  · intro q hq hqlt
    exact pwLtKey_last_max (pwLtKey_filter _ hs) hy q
      (List.mem_filter.mpr ⟨hq, by simp [hqlt]⟩)

theorem treeFLE_node_eq_prev (z : Zone) (name : List Label)
    (hnoex : ∀ q ∈ z.tree, ownerLabels z q ≠ name) :
    (treeFindLessEqual z name).2.1 = (treeFindLessEqual z name).2.2 := by
  have : z.tree.filter (fun nid => !decide (dnameCompare (ownerLabels z nid) name = .gt))
      = z.tree.filter (fun nid => decide (dnameCompare (ownerLabels z nid) name = .lt)) := by
    apply List.filter_congr
    intro x hx
    have hne := hnoex x hx
    rcases dnameCompare_cases (ownerLabels z x) name with h | h | h
    · simp [h]
    · exact absurd (dnameCompare_eq_iff.mp h) hne
    · simp [h]
  simp only [treeFindLessEqual, this]

/- ### Closest encloser -/

/-- The nearest ancestor of `name` present in the plain tree: it is a
tree node whose owner prefixes `name`, of maximal label count. -/
def isClosestEncloser (z : Zone) (name : List Label) (c : Nat) : Prop :=
  c ∈ z.tree ∧ labPre (ownerLabels z c) name = true ∧
  ∀ q ∈ z.tree, labPre (ownerLabels z q) name = true →
    (ownerLabels z q).length ≤ (ownerLabels z c).length

theorem closestEncloser_exists (z : Zone) (name : List Label)
    (hmem : z.apex ∈ z.tree)
    (hsub : labPre (ownerLabels z z.apex) name = true) :
    ∃ c, isClosestEncloser z name c := by
  have hape : z.apex ∈ z.tree.filter (fun q => labPre (ownerLabels z q) name) :=
    List.mem_filter.mpr ⟨hmem, hsub⟩
  obtain ⟨c, hc, hmax⟩ := exists_max_measure (fun q => (ownerLabels z q).length)
    (List.ne_nil_of_mem hape)
  have hcm := List.mem_filter.mp hc
  refine ⟨c, hcm.1, hcm.2, ?_⟩
  intro q hq hqpre
  exact hmax q (List.mem_filter.mpr ⟨hq, hqpre⟩)

theorem ceWalk_reaches (z : Zone) (hwf : zoneWF z = true) (name : List Label)
    (c p : Nat) (hc : isClosestEncloser z name c)
    (hnoex : ∀ q ∈ z.tree, ownerLabels z q ≠ name)
    (hpmem : p ∈ z.tree)
    (hplt : dnameCompare (ownerLabels z p) name = .lt)
    (hpmax : ∀ q ∈ z.tree, dnameCompare (ownerLabels z q) name = .lt →
      q = p ∨ dnameCompare (ownerLabels z q) (ownerLabels z p) = .lt) :
    ∀ fuel nid, nid ∈ z.tree →
      labPre (ownerLabels z c) (ownerLabels z nid) = true →
      labPre (ownerLabels z nid) (ownerLabels z p) = true →
      (ownerLabels z nid).length < fuel →
      ceWalk z (matchedLabels (ownerLabels z p) name) fuel nid = some c := by
  obtain ⟨hcmem, hcpre, hcmax⟩ := hc
  -- the closest encloser's owner is a prefix of the predecessor's owner
  have hclt : dnameCompare (ownerLabels z c) name = .lt :=
    labPre_proper_lt hcpre (hnoex c hcmem)
  have hcple : dnameCompare (ownerLabels z c) (ownerLabels z p) ≠ .gt := by
    rcases hpmax c hcmem hclt with h | h
    · rw [h, dnameCompare_self]; simp
    · rw [h]; simp
  have hcp : labPre (ownerLabels z c) (ownerLabels z p) = true :=
    labPre_common_lower hcpre hcple hplt
  have hcm : (ownerLabels z c).length ≤ matchedLabels (ownerLabels z p) name :=
    matchedLabels_ge hcp hcpre
  intro fuel
  induction fuel with
  | zero =>
    intro nid _ _ _ hlen
    cases hlen
  | succ fuel' ih =>
    intro nid hnmem hcn hnp hlen
    by_cases hstop : matchedLabels (ownerLabels z p) name < (ownerLabels z nid).length
    · -- step to the parent
      have hnap : nid ≠ z.apex := by
        intro heq
        have h1 : (ownerLabels z z.apex).length ≤ (ownerLabels z c).length :=
          labPre_length (zoneWF_apex_sub hwf c hcmem)
        rw [← heq] at h1
        omega
      obtain ⟨p', hp', hp'mem, hp'pre, hp'len, hp'max⟩ :=
        zoneWF_parent hwf nid hnmem hnap
      have hcnienq : ownerLabels z c ≠ ownerLabels z nid := by
        intro heq
        rw [heq] at hcm
        omega
      have hcp'len : (ownerLabels z c).length ≤ (ownerLabels z p').length :=
        hp'max c hcmem hcn hcnienq
      have hcp' : labPre (ownerLabels z c) (ownerLabels z p') = true :=
        labPre_of_common hcn hp'pre hcp'len
      have hp'p : labPre (ownerLabels z p') (ownerLabels z p) = true :=
        labPre_trans hp'pre hnp
      have hfuel : (ownerLabels z p').length < fuel' := by omega
      simp only [ceWalk, if_pos hstop, hp']
      exact ih p' hp'mem hcp' hp'p hfuel
    · -- stop: the current node is the closest encloser
      have hstop' : (ownerLabels z nid).length ≤ matchedLabels (ownerLabels z p) name :=
        Nat.le_of_not_lt hstop
      -- the owner is a prefix of name
      have h1 : labPre (ownerLabels z nid)
          ((ownerLabels z p).take (matchedLabels (ownerLabels z p) name)) = true :=
        labPre_take hnp _ hstop'
      rw [matchedLabels_take] at h1
      have h2 : labPre (ownerLabels z nid) name = true :=
        labPre_trans h1 (labPre_take_self name _)
      have h3 : (ownerLabels z nid).length ≤ (ownerLabels z c).length :=
        hcmax nid hnmem h2
      have h4 : (ownerLabels z c).length ≤ (ownerLabels z nid).length :=
        labPre_length hcn
      have h5 : ownerLabels z c = ownerLabels z nid :=
        labPre_len_eq hcn (by omega)
      have h6 : nid = c :=
        pwLtKey_mem_eq (zoneWF_sorted hwf) hnmem hcmem h5.symm
      simp only [ceWalk, if_neg hstop]
      rw [h6]

/-- Claim C1: in a well-formed zone (apex in the plain tree), for every
searched name that is a subdomain of the apex owner,
`dnslib_zone_find_dname` returns NAME_FOUND with the closest encloser
equal to the found node when the name has an exact match in the tree, and
otherwise returns NAME_NOT_FOUND with the closest encloser set to the
nearest ancestor of the searched name present in the tree (found by the
parent-link walk). -/
theorem zone_find_dname_correct (z : Zone) (name : List Label)
    (hwf : zoneWF z = true)
    (hsub : labPre (ownerLabels z z.apex) name = true) :
    ((∃ e ∈ z.tree, ownerLabels z e = name) →
      (dnslib_zone_find_dname z name).result = .nameFound ∧
      (dnslib_zone_find_dname z name).closest = (dnslib_zone_find_dname z name).node ∧
      ∃ e ∈ z.tree, ownerLabels z e = name ∧
        (dnslib_zone_find_dname z name).node = some e) ∧
    ((¬ ∃ e ∈ z.tree, ownerLabels z e = name) →
      (dnslib_zone_find_dname z name).result = .nameNotFound ∧
      ∃ c, (dnslib_zone_find_dname z name).closest = some c ∧
        isClosestEncloser z name c) := by
  constructor
  · -- exact-match half
    intro hex
    by_cases hapex : dnameCompare name (ownerLabels z z.apex) = .eq
    · have hname : name = ownerLabels z z.apex := dnameCompare_eq_iff.mp hapex
      have hout : dnslib_zone_find_dname z name
          = ⟨.nameFound, some z.apex, some z.apex, none⟩ := by
        simp only [dnslib_zone_find_dname, if_pos hapex]
      rw [hout]
      exact ⟨rfl, rfl, z.apex, zoneWF_apex_mem hwf, hname.symm, rfl⟩
    · obtain ⟨e0, he0, hown⟩ := hex
      have hexact : (treeFindLessEqual z name).1 = true :=
        (treeFLE_exact_iff z name).mpr ⟨e0, he0, hown⟩
      obtain ⟨e, hfound, hemem, heown⟩ :=
        treeFLE_found_exact z name (zoneWF_sorted hwf) he0 hown
      have hproj := find_in_tree_proj z name
      have hnode : (dnslib_zone_find_in_tree z name).node = some e := by
        rw [hproj.1, hfound]
      have hex' : (dnslib_zone_find_in_tree z name).exact = true := by
        rw [hproj.2, hexact]
      have hout : dnslib_zone_find_dname z name
          = ⟨.nameFound, some e, some e, (dnslib_zone_find_in_tree z name).previous⟩ := by
        simp only [dnslib_zone_find_dname, if_neg hapex, hsub, Bool.true_eq_false,
          if_false, hnode, hex', if_true]
      rw [hout]
      exact ⟨rfl, rfl, e, hemem, heown, rfl⟩
  · -- no-exact-match half
    intro hnex
    have hnoex : ∀ q ∈ z.tree, ownerLabels z q ≠ name := by
      intro q hq hcon
      exact hnex ⟨q, hq, hcon⟩
    have hapex : ¬ dnameCompare name (ownerLabels z z.apex) = .eq := by
      intro h
      exact hnoex z.apex (zoneWF_apex_mem hwf) (dnameCompare_eq_iff.mp h).symm
    have hapexne : ownerLabels z z.apex ≠ name := hnoex z.apex (zoneWF_apex_mem hwf)
    have hapexlt : dnameCompare (ownerLabels z z.apex) name = .lt :=
      labPre_proper_lt hsub hapexne
    obtain ⟨p, hprev, hpmem, hplt, hpmax⟩ :=
      treeFLE_prev_spec z name (zoneWF_sorted hwf) (zoneWF_apex_mem hwf) hapexlt
    have hnodeq := treeFLE_node_eq_prev z name hnoex
    have hproj := find_in_tree_proj z name
    have hnode : (dnslib_zone_find_in_tree z name).node = some p := by
      rw [hproj.1, hnodeq, hprev]
    have hexact : (dnslib_zone_find_in_tree z name).exact = false := by
      rw [hproj.2]
      rw [Bool.eq_false_iff]
      intro hcon
      obtain ⟨e, he, hown⟩ := (treeFLE_exact_iff z name).mp hcon
      exact hnoex e he hown
    obtain ⟨c, hc⟩ := closestEncloser_exists z name (zoneWF_apex_mem hwf) hsub
    have hcp : labPre (ownerLabels z c) (ownerLabels z p) = true := by
      have hclt : dnameCompare (ownerLabels z c) name = .lt :=
        labPre_proper_lt hc.2.1 (hnoex c hc.1)
      have hcple : dnameCompare (ownerLabels z c) (ownerLabels z p) ≠ .gt := by
        rcases hpmax c hc.1 hclt with h | h
        · rw [h, dnameCompare_self]; simp
        · rw [h]; simp
      exact labPre_common_lower hc.2.1 hcple hplt
    have hwalk := ceWalk_reaches z hwf name c p hc hnoex hpmem hplt hpmax
      ((ownerLabels z p).length + 1) p hpmem hcp (labPre_refl _) (Nat.lt_succ_self _)
    have hout : dnslib_zone_find_dname z name
        = ⟨.nameNotFound, some p,
           ceWalk z (matchedLabels (ownerLabels z p) name)
             ((ownerLabels z p).length + 1) p,
           (dnslib_zone_find_in_tree z name).previous⟩ := by
      simp only [dnslib_zone_find_dname, if_neg hapex, hsub, Bool.true_eq_false,
        if_false, hnode, hexact, Bool.false_eq_true]
    rw [hout]
    exact ⟨rfl, c, hwalk, hc⟩

/-- A small well-formed zone shared by several witnesses: apex `[1]`
(with SOA and NSEC3PARAM-free rrsets), a delegation `[1,2]` carrying an
NS RRSet whose target dname (id 3, labels `[1,2,3]`) is a value copy of
node 2's owner (id 2), and a glue node `[1,2,3]`. -/
def zoneW : Zone :=
  { dnames := [⟨[1], some 0⟩, ⟨[1, 2], some 1⟩, ⟨[1, 2, 3], some 2⟩, ⟨[1, 2, 3], none⟩]
    nodes := [⟨0, none, [⟨6, [[RdataItem.raw [1]]], none⟩], false, false, none⟩,
              ⟨1, some 0, [⟨2, [[RdataItem.dname 3]], none⟩], false, false, none⟩,
              ⟨2, some 1, [⟨1, [[RdataItem.raw [7]]], none⟩], false, false, none⟩]
    tree := [0, 1, 2]
    nsec3Tree := []
    apex := 0
    nsec3Params := ⟨0, 0, 0, 0⟩ }

theorem zone_find_dname_correct_witness :
    (dnslib_zone_find_dname zoneW [1, 2, 9]).result = .nameNotFound ∧
    ∃ c, (dnslib_zone_find_dname zoneW [1, 2, 9]).closest = some c ∧
      isClosestEncloser zoneW [1, 2, 9] c :=
  (zone_find_dname_correct zoneW [1, 2, 9] (by decide) (by decide)).2 (by decide)

/-- Concrete zone for the C10 counterexample: apex `[1]` with an SOA,
and two empty non-terminals `[1,2]` and `[1,3]`. -/
def zoneC10 : Zone :=
  { dnames := [⟨[1], some 0⟩, ⟨[1, 2], some 1⟩, ⟨[1, 3], some 2⟩]
    nodes := [⟨0, none, [⟨6, [[RdataItem.raw [1]]], none⟩], false, false, none⟩,
              ⟨1, some 0, [], false, false, none⟩,
              ⟨2, some 0, [], false, false, none⟩]
    tree := [0, 1, 2]
    nsec3Tree := []
    apex := 0
    nsec3Params := ⟨0, 0, 0, 0⟩ }

/-- Counterexample to claim C10: searching `[1,3,5]` finds no exact
match; the canonical predecessor `[1,3]` is an empty non-terminal, so one
step back is taken — but only one — and the reported previous node
`[1,2]` is itself an empty non-terminal, refuting "the reported previous
node always carries at least one RRSet". -/
theorem find_in_tree_previous_can_be_empty :
    (dnslib_zone_find_in_tree zoneC10 [1, 3, 5]).exact = false ∧
    (dnslib_zone_find_in_tree zoneC10 [1, 3, 5]).previous = some 1 ∧
    nodeRrsetCount zoneC10 1 = 0 := by
  decide

/-- Claim C10 as amended: when the lookup's strictly-previous node is an
empty non-terminal (zero RRSets), `dnslib_zone_find_in_tree` reports that
node's own previous node instead of the empty node itself; since only a
single step back is taken, the reported previous node may still be an
empty non-terminal. -/
theorem find_in_tree_skips_one_empty (z : Zone) (name : List Label) (p : Nat)
    (hexact : (treeFindLessEqual z name).1 = false)
    (hp : (treeFindLessEqual z name).2.2 = some p)
    (hempty : nodeRrsetCount z p = 0) :
    (dnslib_zone_find_in_tree z name).previous = nodePrevious z p := by
  have _ := hexact
  simp only [dnslib_zone_find_in_tree, hp, hempty, if_pos]

theorem find_in_tree_skips_one_empty_witness :
    (dnslib_zone_find_in_tree zoneC10 [1, 3, 5]).previous = nodePrevious zoneC10 2 :=
  find_in_tree_skips_one_empty zoneC10 [1, 3, 5] 2 (by decide) (by decide) (by decide)

/- ### The adjust pass (dnslib_zone_adjust_dnames and helpers) -/

/-- Modelled from the spec (section 3, type descriptor table): the kinds
of rdata wire fields distinguished by `dnslib_zone_adjust_rdata_in_rrset`. -/
inductive WireKind
  | compressedDname
  | uncompressedDname
  | literalDname
  | other
  deriving DecidableEq

/-- The condition of the C loop: the descriptor kind is one of
`DNSLIB_RDATA_WF_COMPRESSED_DNAME`, `..._UNCOMPRESSED_DNAME`,
`..._LITERAL_DNAME`. -/
def isDnameKind : WireKind → Bool
  | .compressedDname => true
  | .uncompressedDname => true
  | .literalDname => true
  | .other => false

/-- Modelled from the spec (`rdata_field_iter`/type descriptor table):
wire-format kinds per RR type for the types used here (NS, CNAME, SOA,
PTR, MX, RRSIG); unknown types are opaque. -/
def rrtypeWireformat : Nat → List WireKind
  | 2 => [.compressedDname]
  | 5 => [.compressedDname]
  | 6 => [.compressedDname, .compressedDname, .other, .other, .other, .other, .other]
  | 12 => [.compressedDname]
  | 15 => [.other, .compressedDname]
  | 46 => [.other, .other, .other, .other, .other, .other, .other, .literalDname, .other]
  | _ => [.other]

/-- `dnslib_zone_find_node` (via `dnslib_zone_get_node` / `TREE_FIND`):
exact lookup of a name in the plain tree by canonical owner value. -/
def dnslib_zone_find_node (z : Zone) (labels : List Label) : Option Nat :=
  z.tree.find? (fun nid => decide (ownerLabels z nid = labels))

/-- Overwrite the `node` back-link of dname object `did`. -/
def updDnameNode (z : Zone) (did : Nat) (v : Option Nat) : Zone :=
  { z with dnames := z.dnames.set did { z.dnames.getD did default with node := v } }

/-- Replace the node store entry `nid`. -/
def updNode (z : Zone) (nid : Nat) (n : Node) : Zone :=
  { z with nodes := z.nodes.set nid n }

/-- `dnslib_zone_adjust_rdata_item`: fetch the RDATA item at `pos`
(nothing to do when absent, and the raw case models the C precondition
that the function is only called on dname items); look the dname's value
up in the plain tree; when a node is found and its interned owner is not
already this very dname object, copy the owner dname's `node` back-link
into this dname (`dname->node = n->owner->node;` — the commented-out
`dnslib_rdata_item_set_dname` call that would have replaced the item is
NOT executed). -/
def dnslib_zone_adjust_rdata_item (z : Zone) (rd : List RdataItem) (pos : Nat) :
    Zone :=
  match rd.get? pos with
  | none => z
  | some (.raw _) => z
  | some (.dname did) =>
    match dnslib_zone_find_node z (labelsOf z did) with
    | none => z
    | some n =>
      if (z.nodes.getD n default).owner = did then z
      else updDnameNode z did (dnodeOf z ((z.nodes.getD n default).owner))

/-- The inner loop of `dnslib_zone_adjust_rdata_in_rrset` over one RDATA:
adjust every position whose descriptor kind is a dname kind. -/
def adjustRdataPositions (z : Zone) (rtype : Nat) (rd : List RdataItem) : Zone :=
  (List.range rd.length).foldl
    (fun s i =>
      if isDnameKind ((rrtypeWireformat rtype).getD i .other) then
        dnslib_zone_adjust_rdata_item s rd i
      else s) z

/-- `dnslib_zone_adjust_rdata_in_rrset`: run the position loop on every
RDATA of the RRSet (the circular-list walk of the C code visits each
RDATA exactly once). -/
def dnslib_zone_adjust_rdata_in_rrset (z : Zone) (rtype : Nat)
    (rdatas : List (List RdataItem)) : Zone :=
  rdatas.foldl (fun s rd => adjustRdataPositions s rtype rd) z

/-- `dnslib_zone_adjust_rrsets`: adjust every RRSet of the node and the
RRSIGs attached to it (RRSIG type is 46). -/
def dnslib_zone_adjust_rrsets (z : Zone) (nid : Nat) : Zone :=
  (z.nodes.getD nid default).rrsets.foldl
    (fun s rs =>
      let s1 := dnslib_zone_adjust_rdata_in_rrset s rs.rtype rs.rdatas
      match rs.rrsigs with
      | some sigs => dnslib_zone_adjust_rdata_in_rrset s1 46 sigs
      | none => s1) z

/-- Modelled from the spec (NSEC3 hash, `dnslib_zone_nsec3_name`): the
opaque SHA1/base32hex hashed label, embedded as a deterministic function
of the NSEC3 parameters and the hashed name. -/
def nsec3Hash (ps : Nsec3Params) (name : List Label) : Label :=
  name.foldl (fun a l => a * 65599 + l + 1)
    (ps.algorithm * 11 + ps.flags * 5 + ps.iterations * 7 + ps.saltLength * 3)

/-- The net effect of `dnslib_zone_find_nsec3_for_name` as used by
`dnslib_zone_adjust_node`: with NSEC3 disabled the call fails
(`DNSLIB_ENSEC3PAR`) and the caller stores NULL; otherwise the hashed
name (hash label under the apex owner) is searched exactly in the NSEC3
tree, and a non-exact answer is also overwritten with NULL by the
caller. -/
def adjustNsec3Lookup (z : Zone) (name : List Label) : Option Nat :=
  if z.nsec3Params.algorithm = 0 then none
  else z.nsec3Tree.find? (fun m =>
    decide (ownerLabels z m = ownerLabels z z.apex ++ [nsec3Hash z.nsec3Params name]))

/-- The condition of the non-authoritative branch in
`dnslib_zone_adjust_node`: the node has a parent that is a delegation
point or non-authoritative. -/
def parentAuthCond (z : Zone) (nid : Nat) : Bool :=
  match (z.nodes.getD nid default).parent with
  | some p => (z.nodes.getD p default).delegPoint || (z.nodes.getD p default).nonAuth
  | none => false

/-- `dnslib_zone_adjust_node`: adjust the RRSets' rdata, then set the
`non_authoritative` flag when the parent is a delegation point or
non-authoritative, else set `delegation_point` when the node has an NS
RRSet and is not the apex; finally store the exact NSEC3 node for the
owner (NULL when absent or NSEC3 is unconfigured). -/
def dnslib_zone_adjust_node (z : Zone) (nid : Nat) : Zone :=
  let z1 := dnslib_zone_adjust_rrsets z nid
  let z2 :=
    if parentAuthCond z1 nid then
      updNode z1 nid { z1.nodes.getD nid default with nonAuth := true }
    else if (nodeRrset z1 nid 2).isSome && !(nid == z1.apex) then
      updNode z1 nid { z1.nodes.getD nid default with delegPoint := true }
    else z1
  updNode z2 nid
    { z2.nodes.getD nid default with nsec3Node := adjustNsec3Lookup z2 (ownerLabels z2 nid) }

/-- `dnslib_zone_adjust_nsec3_node`: in NSEC3-tree nodes only the RRSIGs
of the (NSEC3) RRSets are adjusted. -/
def dnslib_zone_adjust_nsec3_node (z : Zone) (nid : Nat) : Zone :=
  (z.nodes.getD nid default).rrsets.foldl
    (fun s rs =>
      match rs.rrsigs with
      | some sigs => dnslib_zone_adjust_rdata_in_rrset s 46 sigs
      | none => s) z

/-- First byte of a raw rdata item (0 when absent), used by the modelled
NSEC3PARAM decoder. -/
def itemNat (rd : List RdataItem) (i : Nat) : Nat :=
  match rd.get? i with
  | some (.raw (b :: _)) => b
  | _ => 0

/-- Modelled from the spec (`dnslib_nsec3_params_from_wire`): decode
(algorithm, flags, iterations, salt) from the first RDATA of the
NSEC3PARAM RRSet. -/
def paramsFromRrset (rs : RRSetD) : Nsec3Params :=
  match rs.rdatas with
  | rd :: _ => ⟨itemNat rd 0, itemNat rd 1, itemNat rd 2, itemNat rd 3⟩
  | [] => ⟨0, 0, 0, 0⟩

/-- `dnslib_zone_load_nsec3param`: read the NSEC3PARAM RRSet (type 51)
at the apex; decode it into the zone's parameters, or zero them out. -/
def dnslib_zone_load_nsec3param (z : Zone) : Zone :=
  match nodeRrset z z.apex 51 with
  | some rs => { z with nsec3Params := paramsFromRrset rs }
  | none => { z with nsec3Params := ⟨0, 0, 0, 0⟩ }

/-- `dnslib_zone_adjust_dnames`: load the NSEC3 parameters, then adjust
every plain-tree node in canonical (forward) order, then every NSEC3-tree
node. -/
def dnslib_zone_adjust_dnames (z : Zone) : Zone :=
  let z0 := dnslib_zone_load_nsec3param z
  let z1 := z0.tree.foldl dnslib_zone_adjust_node z0
  z1.nsec3Tree.foldl dnslib_zone_adjust_nsec3_node z1

/- ### List-set helpers and frame lemmas for the adjust pass -/

theorem list_set_oob {α : Type} :
    ∀ (l : List α) (i : Nat) (v : α), l.length ≤ i → l.set i v = l := by
  intro l
  induction l with
  | nil => intro i v _; rfl
  | cons a r ih =>
    intro i v h
    cases i with
    | zero => simp at h
    | succ i' =>
      simp only [List.set_cons_succ]
      rw [ih i' v (by simpa using h)]

theorem getD_set_eq {α : Type} [Inhabited α] :
    ∀ (l : List α) (i : Nat) (v : α), i < l.length →
      (l.set i v).getD i default = v := by
  intro l
  induction l with
  | nil => intro i v h; simp at h
  | cons a r ih =>
    intro i v h
    cases i with
    | zero => rfl
    | succ i' =>
      simp only [List.set_cons_succ, List.getD_cons_succ]
      exact ih i' v (by simpa using h)

theorem getD_set_ne {α : Type} [Inhabited α] :
    ∀ (l : List α) (i j : Nat) (v : α), i ≠ j →
      (l.set i v).getD j default = l.getD j default := by
  intro l
  induction l with
  | nil => intro i j v _; rfl
  | cons a r ih =>
    intro i j v hne
    cases i with
    | zero =>
      cases j with
      | zero => exact absurd rfl hne
      | succ j' => rfl
    | succ i' =>
      cases j with
      | zero => rfl
      | succ j' =>
        simp only [List.set_cons_succ, List.getD_cons_succ]
        exact ih i' j' v (fun hc => hne (by rw [hc]))

/-- A generic preservation principle for folds. -/
theorem foldl_rel {α β : Type} (R : α → α → Prop) (hrefl : ∀ a, R a a)
    (htrans : ∀ a b c, R a b → R b c → R a c)
    (f : α → β → α) (h : ∀ a b, R a (f a b)) :
    ∀ (l : List β) (s : α), R s (l.foldl f s) := by
  intro l
  induction l with
  | nil => intro s; exact hrefl s
  | cons x xs ih =>
    intro s
    exact htrans _ _ _ (h s x) (ih (f s x))

/-- "Only dname back-links changed": all other zone components are
untouched and every dname keeps its labels (and the store its length). -/
def DnamesOnly (s t : Zone) : Prop :=
  t.nodes = s.nodes ∧ t.tree = s.tree ∧ t.nsec3Tree = s.nsec3Tree ∧
  t.apex = s.apex ∧ t.nsec3Params = s.nsec3Params ∧
  t.dnames.length = s.dnames.length ∧
  ∀ d, labelsOf t d = labelsOf s d

theorem dnamesOnly_refl (s : Zone) : DnamesOnly s s :=
  ⟨rfl, rfl, rfl, rfl, rfl, rfl, fun _ => rfl⟩

theorem dnamesOnly_trans {a b c : Zone} (h1 : DnamesOnly a b)
    (h2 : DnamesOnly b c) : DnamesOnly a c :=
  ⟨h2.1.trans h1.1, h2.2.1.trans h1.2.1, h2.2.2.1.trans h1.2.2.1,
   h2.2.2.2.1.trans h1.2.2.2.1, h2.2.2.2.2.1.trans h1.2.2.2.2.1,
   h2.2.2.2.2.2.1.trans h1.2.2.2.2.2.1,
   fun d => (h2.2.2.2.2.2.2 d).trans (h1.2.2.2.2.2.2 d)⟩

theorem labelsOf_updDnameNode (s : Zone) (e : Nat) (v : Option Nat) (d : Nat) :
    labelsOf (updDnameNode s e v) d = labelsOf s d := by
  unfold labelsOf updDnameNode
  by_cases hd : e = d
  · subst hd
    by_cases hlt : e < s.dnames.length
    · simp only
      rw [getD_set_eq s.dnames e _ hlt]
    · simp only
      rw [list_set_oob s.dnames e _ (Nat.le_of_not_lt hlt)]
  · simp only
    rw [getD_set_ne s.dnames e d _ hd]

theorem dnamesOnly_updDnameNode (s : Zone) (e : Nat) (v : Option Nat) :
    DnamesOnly s (updDnameNode s e v) :=
  ⟨rfl, rfl, rfl, rfl, rfl, by simp [updDnameNode], labelsOf_updDnameNode s e v⟩

theorem dnamesOnly_adjust_item (s : Zone) (rd : List RdataItem) (pos : Nat) :
    DnamesOnly s (dnslib_zone_adjust_rdata_item s rd pos) := by
  unfold dnslib_zone_adjust_rdata_item
  split
  · exact dnamesOnly_refl s
  · exact dnamesOnly_refl s
  · split
    · exact dnamesOnly_refl s
    · split
      · exact dnamesOnly_refl s
      · exact dnamesOnly_updDnameNode s _ _

theorem dnamesOnly_adjustPositions (s : Zone) (rtype : Nat) (rd : List RdataItem) :
    DnamesOnly s (adjustRdataPositions s rtype rd) := by
  apply foldl_rel DnamesOnly dnamesOnly_refl (fun _ _ _ => dnamesOnly_trans)
  intro a i
  by_cases hk : isDnameKind ((rrtypeWireformat rtype).getD i .other) = true
  · simp only [hk, if_true]
    exact dnamesOnly_adjust_item a rd i
  · simp only [Bool.eq_false_iff.mpr hk, Bool.false_eq_true, if_false]
    exact dnamesOnly_refl a

theorem dnamesOnly_adjust_in_rrset (s : Zone) (rtype : Nat)
    (rdatas : List (List RdataItem)) :
    DnamesOnly s (dnslib_zone_adjust_rdata_in_rrset s rtype rdatas) := by
  apply foldl_rel DnamesOnly dnamesOnly_refl (fun _ _ _ => dnamesOnly_trans)
  intro a rd
  exact dnamesOnly_adjustPositions a rtype rd

theorem dnamesOnly_adjust_rrsets (s : Zone) (nid : Nat) :
    DnamesOnly s (dnslib_zone_adjust_rrsets s nid) := by
  apply foldl_rel DnamesOnly dnamesOnly_refl (fun _ _ _ => dnamesOnly_trans)
  intro a rs
  simp only
  split
  · exact dnamesOnly_trans (dnamesOnly_adjust_in_rrset a rs.rtype rs.rdatas)
      (dnamesOnly_adjust_in_rrset _ 46 _)
  · exact dnamesOnly_adjust_in_rrset a rs.rtype rs.rdatas

theorem dnamesOnly_adjust_nsec3_node (s : Zone) (nid : Nat) :
    DnamesOnly s (dnslib_zone_adjust_nsec3_node s nid) := by
  apply foldl_rel DnamesOnly dnamesOnly_refl (fun _ _ _ => dnamesOnly_trans)
  intro a rs
  split
  · exact dnamesOnly_adjust_in_rrset a 46 _
  · exact dnamesOnly_refl a

theorem ownerLabels_of_dnamesOnly {s t : Zone} (h : DnamesOnly s t) (nid : Nat) :
    ownerLabels t nid = ownerLabels s nid := by
  unfold ownerLabels
  rw [h.1]
  exact h.2.2.2.2.2.2 _

theorem updNode_getD (s : Zone) (nid : Nat) (v : Node) (m : Nat) :
    (updNode s nid v).nodes.getD m default =
      if nid = m ∧ nid < s.nodes.length then v else s.nodes.getD m default := by
  unfold updNode
  by_cases hm : nid = m
  · subst hm
    by_cases hlt : nid < s.nodes.length
    · rw [if_pos ⟨rfl, hlt⟩]
      exact getD_set_eq _ _ _ hlt
    · rw [if_neg (fun hc => hlt hc.2)]
      simp only
      rw [list_set_oob _ _ _ (Nat.le_of_not_lt hlt)]
  · rw [if_neg (fun hc => hm hc.1)]
    exact getD_set_ne _ _ _ _ hm

/-- Frame relation for whole-pass reasoning: everything except dname
back-links and node flags/NSEC3 links is unchanged. -/
def StaticZ (s t : Zone) : Prop :=
  t.tree = s.tree ∧ t.nsec3Tree = s.nsec3Tree ∧ t.apex = s.apex ∧
  t.nsec3Params = s.nsec3Params ∧ t.dnames.length = s.dnames.length ∧
  (∀ d, labelsOf t d = labelsOf s d) ∧ t.nodes.length = s.nodes.length ∧
  ∀ m, (t.nodes.getD m default).owner = (s.nodes.getD m default).owner ∧
       (t.nodes.getD m default).parent = (s.nodes.getD m default).parent ∧
       (t.nodes.getD m default).rrsets = (s.nodes.getD m default).rrsets

theorem staticZ_refl (s : Zone) : StaticZ s s :=
  ⟨rfl, rfl, rfl, rfl, rfl, fun _ => rfl, rfl, fun _ => ⟨rfl, rfl, rfl⟩⟩

theorem staticZ_trans {a b c : Zone} (h1 : StaticZ a b) (h2 : StaticZ b c) :
    StaticZ a c := by
  obtain ⟨t1, n1, a1, p1, d1, l1, nl1, f1⟩ := h1
  obtain ⟨t2, n2, a2, p2, d2, l2, nl2, f2⟩ := h2
  refine ⟨t2.trans t1, n2.trans n1, a2.trans a1, p2.trans p1, d2.trans d1,
    fun d => (l2 d).trans (l1 d), nl2.trans nl1, fun m => ?_⟩
  exact ⟨(f2 m).1.trans (f1 m).1, (f2 m).2.1.trans (f1 m).2.1,
    (f2 m).2.2.trans (f1 m).2.2⟩

theorem staticZ_of_dnamesOnly {s t : Zone} (h : DnamesOnly s t) : StaticZ s t := by
  obtain ⟨hn, ht, h3, ha, hp, hl, hlab⟩ := h
  exact ⟨ht, h3, ha, hp, hl, hlab, by rw [hn], fun m => by rw [hn]; exact ⟨rfl, rfl, rfl⟩⟩

theorem staticZ_updNode (s : Zone) (nid : Nat) (v : Node)
    (hown : v.owner = (s.nodes.getD nid default).owner)
    (hpar : v.parent = (s.nodes.getD nid default).parent)
    (hrr : v.rrsets = (s.nodes.getD nid default).rrsets) :
    StaticZ s (updNode s nid v) := by
  refine ⟨rfl, rfl, rfl, rfl, rfl, fun _ => rfl, by simp [updNode], fun m => ?_⟩
  rw [updNode_getD]
  by_cases hc : nid = m ∧ nid < s.nodes.length
  · rw [if_pos hc]
    rw [hc.1] at hown hpar hrr
    exact ⟨hown, hpar, hrr⟩
  · rw [if_neg hc]
    exact ⟨rfl, rfl, rfl⟩

theorem ownerLabels_of_staticZ {s t : Zone} (h : StaticZ s t) (m : Nat) :
    ownerLabels t m = ownerLabels s m := by
  unfold ownerLabels
  rw [show (t.nodes.getD m default).owner = (s.nodes.getD m default).owner
    from (h.2.2.2.2.2.2.2 m).1]
  exact h.2.2.2.2.2.1 _

theorem find_node_stable {s t : Zone} (htree : t.tree = s.tree)
    (hown : ∀ nid, ownerLabels t nid = ownerLabels s nid) (ls : List Label) :
    dnslib_zone_find_node t ls = dnslib_zone_find_node s ls := by
  unfold dnslib_zone_find_node
  rw [htree]
  congr 1
  funext nid
  rw [hown nid]

theorem adjustNsec3Lookup_stable {s t : Zone} (h : StaticZ s t)
    (name : List Label) : adjustNsec3Lookup t name = adjustNsec3Lookup s name := by
  have hpred : (fun m => decide (ownerLabels t m
        = ownerLabels t t.apex ++ [nsec3Hash s.nsec3Params name]))
      = (fun m => decide (ownerLabels s m
        = ownerLabels s s.apex ++ [nsec3Hash s.nsec3Params name])) := by
    funext m
    rw [ownerLabels_of_staticZ h m, h.2.2.1, ownerLabels_of_staticZ h s.apex]
  unfold adjustNsec3Lookup
  rw [h.2.2.2.1, h.2.1, hpred]

theorem nodeRrset_of_staticZ {s t : Zone} (h : StaticZ s t) (nid ty : Nat) :
    nodeRrset t nid ty = nodeRrset s nid ty := by
  unfold nodeRrset
  rw [(h.2.2.2.2.2.2.2 nid).2.2]

/-- The flag assignment of `dnslib_zone_adjust_node` as a pure function
of the pre-state. -/
def flagged (s : Zone) (nid : Nat) (n : Node) : Node :=
  if parentAuthCond s nid then { n with nonAuth := true }
  else if (nodeRrset s nid 2).isSome && !(nid == s.apex) then
    { n with delegPoint := true }
  else n

theorem parentAuthCond_congr {s t : Zone}
    (h : ∀ m, t.nodes.getD m default = s.nodes.getD m default) (nid : Nat) :
    parentAuthCond t nid = parentAuthCond s nid := by
  unfold parentAuthCond
  rw [h nid]
  cases (s.nodes.getD nid default).parent with
  | none => rfl
  | some p => simp only [h p]

theorem nodeRrset_congr {s t : Zone}
    (h : ∀ m, t.nodes.getD m default = s.nodes.getD m default) (nid ty : Nat) :
    nodeRrset t nid ty = nodeRrset s nid ty := by
  unfold nodeRrset
  rw [h nid]

/-- Effect of `dnslib_zone_adjust_node` on the node store: other nodes
are untouched; the adjusted node receives its flags per `flagged` and its
NSEC3 link per `adjustNsec3Lookup`, both evaluated on the pre-state. -/
theorem adjust_node_effect (s : Zone) (nid : Nat) :
    StaticZ s (dnslib_zone_adjust_node s nid) ∧
    (∀ m, m ≠ nid → (dnslib_zone_adjust_node s nid).nodes.getD m default
        = s.nodes.getD m default) ∧
    (nid < s.nodes.length →
      (dnslib_zone_adjust_node s nid).nodes.getD nid default
        = { flagged s nid (s.nodes.getD nid default) with
            nsec3Node := adjustNsec3Lookup s (ownerLabels s nid) }) := by
  unfold dnslib_zone_adjust_node
  simp only
  set z1 := dnslib_zone_adjust_rrsets s nid with hz1
  have hd1 : DnamesOnly s z1 := dnamesOnly_adjust_rrsets s nid
  have hs1 : StaticZ s z1 := staticZ_of_dnamesOnly hd1
  have hnodes1 : z1.nodes = s.nodes := hd1.1
  have hcond1 : parentAuthCond z1 nid = parentAuthCond s nid :=
    parentAuthCond_congr (fun m => by rw [hnodes1]) nid
  have hrr1 : nodeRrset z1 nid 2 = nodeRrset s nid 2 :=
    nodeRrset_congr (fun m => by rw [hnodes1]) nid 2
  have hap1 : z1.apex = s.apex := hs1.2.2.1
  have hget1 : ∀ m, z1.nodes.getD m default = s.nodes.getD m default := by
    intro m; rw [hnodes1]
  -- the state after the flag branch
  set z2 := (if parentAuthCond z1 nid then
      updNode z1 nid { z1.nodes.getD nid default with nonAuth := true }
    else if (nodeRrset z1 nid 2).isSome && !(nid == z1.apex) then
      updNode z1 nid { z1.nodes.getD nid default with delegPoint := true }
    else z1) with hz2
  have hs2 : StaticZ z1 z2 := by
    rw [hz2]
    by_cases hc : parentAuthCond z1 nid = true
    · rw [if_pos hc]
      exact staticZ_updNode z1 nid _ rfl rfl rfl
    · rw [if_neg hc]
      by_cases hc2 : ((nodeRrset z1 nid 2).isSome && !(nid == z1.apex)) = true
      · rw [if_pos hc2]
        exact staticZ_updNode z1 nid _ rfl rfl rfl
      · rw [if_neg hc2]
        exact staticZ_refl z1
  have hz2other : ∀ m, m ≠ nid → z2.nodes.getD m default = z1.nodes.getD m default := by
    intro m hm
    rw [hz2]
    by_cases hc : parentAuthCond z1 nid = true
    · rw [if_pos hc, updNode_getD, if_neg (fun hc' => hm hc'.1.symm)]
    · rw [if_neg hc]
      by_cases hc2 : ((nodeRrset z1 nid 2).isSome && !(nid == z1.apex)) = true
      · rw [if_pos hc2, updNode_getD, if_neg (fun hc' => hm hc'.1.symm)]
      · rw [if_neg hc2]
  have hz2self : nid < s.nodes.length →
      z2.nodes.getD nid default = flagged s nid (s.nodes.getD nid default) := by
    intro hlt
    have hlt1 : nid < z1.nodes.length := by rw [hnodes1]; exact hlt
    rw [hz2]
    unfold flagged
    by_cases hc : parentAuthCond s nid = true
    · rw [if_pos hc, if_pos (hcond1.trans hc), updNode_getD, if_pos ⟨rfl, hlt1⟩, hget1]
    · have hc1 : ¬ parentAuthCond z1 nid = true := by rw [hcond1]; exact hc
      rw [if_neg hc1, if_neg hc]
      by_cases hc2 : ((nodeRrset s nid 2).isSome && !(nid == s.apex)) = true
      · have hc2' : ((nodeRrset z1 nid 2).isSome && !(nid == z1.apex)) = true := by
          rw [hrr1, hap1]; exact hc2
        rw [if_pos hc2', if_pos hc2, updNode_getD, if_pos ⟨rfl, hlt1⟩, hget1]
      · have hc2' : ¬ ((nodeRrset z1 nid 2).isSome && !(nid == z1.apex)) = true := by
          rw [hrr1, hap1]; exact hc2
        rw [if_neg hc2', if_neg hc2]
        exact hget1 nid
  have hs12 : StaticZ s z2 := staticZ_trans hs1 hs2
  have hlen2 : z2.nodes.length = s.nodes.length := hs12.2.2.2.2.2.2.1
  have hlook : adjustNsec3Lookup z2 (ownerLabels z2 nid)
      = adjustNsec3Lookup s (ownerLabels s nid) := by
    rw [ownerLabels_of_staticZ hs12 nid]
    exact adjustNsec3Lookup_stable hs12 _
  refine ⟨?_, ?_, ?_⟩
  · refine staticZ_trans hs12 (staticZ_updNode z2 nid _ rfl rfl rfl)
  · intro m hm
    rw [updNode_getD, if_neg (fun hc' => hm hc'.1.symm)]
    rw [hz2other m hm, hget1]
  · intro hlt
    have hlt2 : nid < z2.nodes.length := by rw [hlen2]; exact hlt
    rw [updNode_getD, if_pos ⟨rfl, hlt2⟩, hlook, hz2self hlt]

theorem pwLtKey_append_right {f : Nat → List Label} :
    ∀ {l1 l2 : List Nat}, pwLtKey f (l1 ++ l2) = true → pwLtKey f l2 = true := by
  intro l1
  induction l1 with
  | nil => intro l2 h; exact h
  | cons a r ih => intro l2 h; exact ih (pwLtKey_tail h)

/-- In a strictly sorted split `l1 ++ m :: l2`, every member with a key
below `m`'s key lies in `l1`. -/
theorem mem_left_of_lt {f : Nat → List Label} {l1 l2 : List Nat} {m p : Nat}
    (hs : pwLtKey f (l1 ++ m :: l2) = true)
    (hp : p ∈ l1 ++ m :: l2)
    (hlt : dnameCompare (f p) (f m) = .lt) : p ∈ l1 := by
  rcases List.mem_append.mp hp with h | h
  · exact h
  · rcases List.mem_cons.mp h with h' | h'
    · subst h'
      rw [dnameCompare_self] at hlt
      cases hlt
    · exfalso
      have hmp : dnameCompare (f m) (f p) = .lt :=
        pwLtKey_head (pwLtKey_append_right hs) h'
      have := dnameCompare_trans hlt hmp
      rw [dnameCompare_self] at this
      cases this

theorem parentAuthCond_ext {s t : Zone} (n : Nat)
    (hpar : (t.nodes.getD n default).parent = (s.nodes.getD n default).parent)
    (hflags : ∀ p, (s.nodes.getD n default).parent = some p →
      (t.nodes.getD p default).delegPoint = (s.nodes.getD p default).delegPoint ∧
      (t.nodes.getD p default).nonAuth = (s.nodes.getD p default).nonAuth) :
    parentAuthCond t n = parentAuthCond s n := by
  unfold parentAuthCond
  rw [hpar]
  cases hp : (s.nodes.getD n default).parent with
  | none => rfl
  | some p =>
    obtain ⟨h1, h2⟩ := hflags p hp
    simp only [h1, h2]

/-- Post-adjust specification of one plain-tree node, relative to the
pre-pass state `z0` (for the original flags, the RRSets and the NSEC3
data) and the current state `s` (for the parent's flags). -/
def Done (z0 s : Zone) (n : Nat) : Prop :=
  (s.nodes.getD n default).nonAuth
    = ((z0.nodes.getD n default).nonAuth || parentAuthCond s n) ∧
  (s.nodes.getD n default).delegPoint
    = ((z0.nodes.getD n default).delegPoint ||
       (!(parentAuthCond s n) && (nodeRrset z0 n 2).isSome && !(n == z0.apex))) ∧
  (s.nodes.getD n default).nsec3Node = adjustNsec3Lookup z0 (ownerLabels z0 n)

/-- The plain-tree phase of the adjust pass: walking the (sorted) tree in
canonical order establishes `Done` for every visited node, touches no
other node, and keeps the static parts of the zone. -/
theorem adjust_fold_done (z0 : Zone)
    (hsorted : pwLtKey (ownerLabels z0) z0.tree = true)
    (hvalid : ∀ nid ∈ z0.tree, nid < z0.nodes.length)
    (hparent : ∀ nid ∈ z0.tree, ∀ p, (z0.nodes.getD nid default).parent = some p →
      p ∈ z0.tree ∧ dnameCompare (ownerLabels z0 p) (ownerLabels z0 nid) = .lt ∧
      p ≠ nid) :
    ∀ l2 l1 s, z0.tree = l1 ++ l2 →
      StaticZ z0 s →
      (∀ m, m ∉ l1 → s.nodes.getD m default = z0.nodes.getD m default) →
      (∀ n ∈ l1, Done z0 s n) →
      (∀ n ∈ l1, ∀ p, (z0.nodes.getD n default).parent = some p → p ∈ l1) →
      StaticZ z0 (l2.foldl dnslib_zone_adjust_node s) ∧
      (∀ m, m ∉ l1 ++ l2 → (l2.foldl dnslib_zone_adjust_node s).nodes.getD m default
          = z0.nodes.getD m default) ∧
      (∀ n ∈ l1 ++ l2, Done z0 (l2.foldl dnslib_zone_adjust_node s) n) ∧
      (∀ n ∈ l1 ++ l2, ∀ p, (z0.nodes.getD n default).parent = some p →
        p ∈ l1 ++ l2) := by
  intro l2
  induction l2 with
  | nil =>
    intro l1 s hsplit hstat huntouched hdone hclosure
    simp only [List.foldl_nil, List.append_nil]
    exact ⟨hstat, huntouched, hdone, hclosure⟩
  | cons m l2' ih =>
    intro l1 s hsplit hstat huntouched hdone hclosure
    have hnodup : (l1 ++ m :: l2').Nodup := by
      rw [← hsplit]
      exact pwLtKey_nodup hsorted
    have hmnotl1 : m ∉ l1 := by
      intro hc
      have := List.disjoint_of_nodup_append hnodup
      exact this hc (List.mem_cons_self m l2')
    have hmmem : m ∈ z0.tree := by
      rw [hsplit]
      exact List.mem_append.mpr (Or.inr (List.mem_cons_self m l2'))
    have hmlen : m < z0.nodes.length := hvalid m hmmem
    have hmlen_s : m < s.nodes.length := by
      rw [hstat.2.2.2.2.2.2.1]
      exact hmlen
    have heff := adjust_node_effect s m
    set s' := dnslib_zone_adjust_node s m with hs'
    have hstat' : StaticZ z0 s' := staticZ_trans hstat heff.1
    have hs'other : ∀ k, k ≠ m → s'.nodes.getD k default = s.nodes.getD k default :=
      fun k hk => heff.2.1 k hk
    have hs'self : s'.nodes.getD m default
        = { flagged s m (s.nodes.getD m default) with
            nsec3Node := adjustNsec3Lookup s (ownerLabels s m) } :=
      heff.2.2 hmlen_s
    -- the condition on m is stable from s to s'
    have hparfield : ∀ t', StaticZ z0 t' → ∀ k,
        (t'.nodes.getD k default).parent = (z0.nodes.getD k default).parent :=
      fun t' ht' k => (ht'.2.2.2.2.2.2.2 k).2.1
    have hcondm : parentAuthCond s' m = parentAuthCond s m := by
      apply parentAuthCond_ext
      · rw [hparfield s' hstat' m, hparfield s hstat m]
      · intro p hp
        have hp0 : (z0.nodes.getD m default).parent = some p := by
          rw [← hparfield s hstat m]
          exact hp
        have hpm := (hparent m hmmem p hp0).2.2
        rw [hs'other p hpm]
        exact ⟨rfl, rfl⟩
    -- Done for the newly processed node
    have hsm_z0 : s.nodes.getD m default = z0.nodes.getD m default :=
      huntouched m hmnotl1
    have hrr_s : nodeRrset s m 2 = nodeRrset z0 m 2 := nodeRrset_of_staticZ hstat m 2
    have hap_s : s.apex = z0.apex := hstat.2.2.1
    have hlook_s : adjustNsec3Lookup s (ownerLabels s m)
        = adjustNsec3Lookup z0 (ownerLabels z0 m) := by
      rw [ownerLabels_of_staticZ hstat m]
      exact adjustNsec3Lookup_stable hstat _
    have hdonem : Done z0 s' m := by
      refine ⟨?_, ?_, ?_⟩
      · rw [hs'self, hcondm]
        unfold flagged
        by_cases hc : parentAuthCond s m = true
        · rw [if_pos hc, hc]
          simp
        · rw [if_neg hc, Bool.eq_false_iff.mpr hc, Bool.or_false]
          by_cases hc2 : ((nodeRrset s m 2).isSome && !(m == s.apex)) = true
          · rw [if_pos hc2]
            simp only
            rw [hsm_z0]
          · rw [if_neg hc2]
            simp only
            rw [hsm_z0]
      · rw [hs'self, hcondm]
        unfold flagged
        by_cases hc : parentAuthCond s m = true
        · rw [if_pos hc, hc]
          simp only [Bool.not_true, Bool.false_and, Bool.and_false, Bool.or_false]
          rw [hsm_z0]
        · rw [if_neg hc, Bool.eq_false_iff.mpr hc, Bool.not_false, Bool.true_and]
          by_cases hc2 : ((nodeRrset s m 2).isSome && !(m == s.apex)) = true
          · rw [if_pos hc2]
            simp only
            rw [hrr_s, hap_s] at hc2
            rw [hc2]
            simp
          · rw [if_neg hc2]
            simp only
            rw [hrr_s, hap_s] at hc2
            rw [Bool.eq_false_iff.mpr hc2, Bool.or_false, hsm_z0]
      · rw [hs'self]
        simp only
        exact hlook_s
    -- Done is preserved for previously processed nodes
    have hdone' : ∀ n ∈ l1 ++ [m], Done z0 s' n := by
      intro n hn
      rcases List.mem_append.mp hn with hn' | hn'
      · have hne : n ≠ m := fun hc => hmnotl1 (hc ▸ hn')
        have hcondn : parentAuthCond s' n = parentAuthCond s n := by
          apply parentAuthCond_ext
          · rw [hparfield s' hstat' n, hparfield s hstat n]
          · intro p hp
            have hp0 : (z0.nodes.getD n default).parent = some p := by
              rw [← hparfield s hstat n]
              exact hp
            have hpl1 : p ∈ l1 := hclosure n hn' p hp0
            have hpne : p ≠ m := fun hc => hmnotl1 (hc ▸ hpl1)
            rw [hs'other p hpne]
            exact ⟨rfl, rfl⟩
        obtain ⟨h1, h2, h3⟩ := hdone n hn'
        refine ⟨?_, ?_, ?_⟩
        · rw [hs'other n hne, hcondn]
          exact h1
        · rw [hs'other n hne, hcondn]
          exact h2
        · rw [hs'other n hne]
          exact h3
      · rcases List.mem_singleton.mp hn' with rfl
        exact hdonem
    -- untouched nodes
    have huntouched' : ∀ k, k ∉ l1 ++ [m] → s'.nodes.getD k default
        = z0.nodes.getD k default := by
      intro k hk
      have hk1 : k ∉ l1 := fun hc => hk (List.mem_append.mpr (Or.inl hc))
      have hkm : k ≠ m := fun hc =>
        hk (List.mem_append.mpr (Or.inr (by rw [hc]; exact List.mem_singleton_self m)))
      rw [hs'other k hkm]
      exact huntouched k hk1
    -- parent closure
    have hclosure' : ∀ n ∈ l1 ++ [m], ∀ p,
        (z0.nodes.getD n default).parent = some p → p ∈ l1 ++ [m] := by
      intro n hn p hp
      rcases List.mem_append.mp hn with hn' | hn'
      · exact List.mem_append.mpr (Or.inl (hclosure n hn' p hp))
      · rcases List.mem_singleton.mp hn' with rfl
        obtain ⟨hptree, hplt, _⟩ := hparent n hmmem p hp
        have : p ∈ l1 := by
          refine @mem_left_of_lt (ownerLabels z0) l1 l2' n p ?_ ?_ ?_
          · rw [← hsplit]; exact hsorted
          · rw [← hsplit]; exact hptree
          · exact hplt
        exact List.mem_append.mpr (Or.inl this)
    have hsplit' : z0.tree = (l1 ++ [m]) ++ l2' := by
      rw [hsplit, List.append_assoc]
      rfl
    have := ih (l1 ++ [m]) s' hsplit' hstat' huntouched' hdone' hclosure'
    rw [List.foldl_cons]
    refine ⟨this.1, ?_, ?_, ?_⟩
    · intro k hk
      apply this.2.1
      intro hc
      apply hk
      rcases List.mem_append.mp hc with h' | h'
      · rcases List.mem_append.mp h' with h'' | h''
        · exact List.mem_append.mpr (Or.inl h'')
        · rcases List.mem_singleton.mp h'' with rfl
          exact List.mem_append.mpr (Or.inr (List.mem_cons_self _ _))
      · exact List.mem_append.mpr (Or.inr (List.mem_cons_of_mem m h'))
    · intro n hn
      apply this.2.2.1
      rcases List.mem_append.mp hn with h' | h'
      · exact List.mem_append.mpr (Or.inl (List.mem_append.mpr (Or.inl h')))
      · rcases List.mem_cons.mp h' with h'' | h''
        · rw [h'']
          exact List.mem_append.mpr
            (Or.inl (List.mem_append.mpr (Or.inr (List.mem_singleton_self m))))
        · exact List.mem_append.mpr (Or.inr h'')
    · intro n hn p hp
      have hmem' : n ∈ (l1 ++ [m]) ++ l2' := by
        rcases List.mem_append.mp hn with h' | h'
        · exact List.mem_append.mpr (Or.inl (List.mem_append.mpr (Or.inl h')))
        · rcases List.mem_cons.mp h' with h'' | h''
          · rw [h'']
            exact List.mem_append.mpr
              (Or.inl (List.mem_append.mpr (Or.inr (List.mem_singleton_self m))))
          · exact List.mem_append.mpr (Or.inr h'')
      have := this.2.2.2 n hmem' p hp
      rcases List.mem_append.mp this with h' | h'
      · rcases List.mem_append.mp h' with h'' | h''
        · exact List.mem_append.mpr (Or.inl h'')
        · rcases List.mem_singleton.mp h'' with rfl
          exact List.mem_append.mpr (Or.inr (List.mem_cons_self _ _))
      · exact List.mem_append.mpr (Or.inr (List.mem_cons_of_mem m h'))

theorem load_fields (z : Zone) :
    (dnslib_zone_load_nsec3param z).nodes = z.nodes ∧
    (dnslib_zone_load_nsec3param z).tree = z.tree ∧
    (dnslib_zone_load_nsec3param z).dnames = z.dnames ∧
    (dnslib_zone_load_nsec3param z).apex = z.apex ∧
    (dnslib_zone_load_nsec3param z).nsec3Tree = z.nsec3Tree := by
  unfold dnslib_zone_load_nsec3param
  cases nodeRrset z z.apex 51 <;> exact ⟨rfl, rfl, rfl, rfl, rfl⟩

theorem zoneWF_load (z : Zone) :
    zoneWF (dnslib_zone_load_nsec3param z) = zoneWF z := by
  unfold dnslib_zone_load_nsec3param
  cases nodeRrset z z.apex 51 <;> rfl

/-- Summary of the adjust pass: the static parts of the zone are
preserved, nodes outside the plain tree are untouched, and every
plain-tree node satisfies its post-adjust specification `Done`. -/
theorem adjust_dnames_spec (z : Zone) (hwf : zoneWF z = true) :
    StaticZ (dnslib_zone_load_nsec3param z) (dnslib_zone_adjust_dnames z) ∧
    (∀ m, m ∉ z.tree → (dnslib_zone_adjust_dnames z).nodes.getD m default
        = z.nodes.getD m default) ∧
    (∀ n ∈ z.tree,
      Done (dnslib_zone_load_nsec3param z) (dnslib_zone_adjust_dnames z) n) := by
  have hlf := load_fields z
  have hwf0 : zoneWF (dnslib_zone_load_nsec3param z) = true := by
    rw [zoneWF_load]
    exact hwf
  have hsorted := zoneWF_sorted hwf0
  have hvalid := zoneWF_valid hwf0
  have hparent : ∀ nid ∈ (dnslib_zone_load_nsec3param z).tree, ∀ p,
      ((dnslib_zone_load_nsec3param z).nodes.getD nid default).parent = some p →
      p ∈ (dnslib_zone_load_nsec3param z).tree ∧
      dnameCompare (ownerLabels (dnslib_zone_load_nsec3param z) p)
        (ownerLabels (dnslib_zone_load_nsec3param z) nid) = .lt ∧ p ≠ nid := by
    intro nid hmem p hp
    by_cases hap : nid = (dnslib_zone_load_nsec3param z).apex
    · rw [hap, zoneWF_apex_parent hwf0] at hp
      cases hp
    · obtain ⟨p', hp', hpmem, hppre, hplen, _⟩ := zoneWF_parent hwf0 nid hmem hap
      rw [hp'] at hp
      injection hp with hpe
      subst hpe
      refine ⟨hpmem, ?_, ?_⟩
      · apply labPre_proper_lt hppre
        intro hc
        rw [hc] at hplen
        omega
      · intro hc
        rw [hc] at hplen
        omega
  have hmain := adjust_fold_done (dnslib_zone_load_nsec3param z) hsorted hvalid hparent
    (dnslib_zone_load_nsec3param z).tree [] (dnslib_zone_load_nsec3param z) rfl
    (staticZ_refl _) (fun _ _ => rfl) (fun n hn => absurd hn (List.not_mem_nil n))
    (fun n hn => absurd hn (List.not_mem_nil n))
  simp only [List.nil_append] at hmain
  have hd3 : DnamesOnly
      ((dnslib_zone_load_nsec3param z).tree.foldl dnslib_zone_adjust_node
        (dnslib_zone_load_nsec3param z))
      (dnslib_zone_adjust_dnames z) := by
    apply foldl_rel DnamesOnly dnamesOnly_refl (fun _ _ _ => dnamesOnly_trans)
    exact fun a b => dnamesOnly_adjust_nsec3_node a b
  have hnodes3 : (dnslib_zone_adjust_dnames z).nodes
      = ((dnslib_zone_load_nsec3param z).tree.foldl dnslib_zone_adjust_node
          (dnslib_zone_load_nsec3param z)).nodes := hd3.1
  have htree0 : (dnslib_zone_load_nsec3param z).tree = z.tree := hlf.2.1
  refine ⟨?_, ?_, ?_⟩
  · exact staticZ_trans hmain.1 (staticZ_of_dnamesOnly hd3)
  · intro m hm
    rw [hnodes3, hmain.2.1 m (by rw [htree0]; exact hm), hlf.1]
  · intro n hn
    have hdone := hmain.2.2.1 n (by rw [htree0]; exact hn)
    obtain ⟨h1, h2, h3⟩ := hdone
    have hcongr : parentAuthCond (dnslib_zone_adjust_dnames z) n
        = parentAuthCond ((dnslib_zone_load_nsec3param z).tree.foldl
            dnslib_zone_adjust_node (dnslib_zone_load_nsec3param z)) n :=
      parentAuthCond_congr (fun m => by rw [hnodes3]) n
    refine ⟨?_, ?_, ?_⟩
    · rw [hnodes3, hcongr]
      exact h1
    · rw [hnodes3, hcongr]
      exact h2
    · rw [hnodes3]
      exact h3

/-- Claim C6: after the adjust pass on a well-formed zone whose flags
start clear, a tree node is flagged non-authoritative exactly when its
parent is a delegation point or non-authoritative, and flagged as a
delegation point exactly when that is not the case, it carries an NS
RRSet and it is not the apex; nodes outside the tree receive neither
flag. -/
theorem adjust_flags_characterization (z : Zone) (hwf : zoneWF z = true)
    (hclear : ∀ n ∈ z.tree, (z.nodes.getD n default).nonAuth = false ∧
      (z.nodes.getD n default).delegPoint = false) :
    (∀ n ∈ z.tree,
      ((dnslib_zone_adjust_dnames z).nodes.getD n default).nonAuth
          = parentAuthCond (dnslib_zone_adjust_dnames z) n ∧
      ((dnslib_zone_adjust_dnames z).nodes.getD n default).delegPoint
          = (!(parentAuthCond (dnslib_zone_adjust_dnames z) n)
             && (nodeRrset (dnslib_zone_adjust_dnames z) n 2).isSome
             && !(n == z.apex))) ∧
    (∀ m, m ∉ z.tree → (dnslib_zone_adjust_dnames z).nodes.getD m default
        = z.nodes.getD m default) := by
  obtain ⟨hstat, huntouched, hdone⟩ := adjust_dnames_spec z hwf
  refine ⟨?_, huntouched⟩
  intro n hn
  obtain ⟨h1, h2, _⟩ := hdone n hn
  have hz0nodes : (dnslib_zone_load_nsec3param z).nodes = z.nodes := (load_fields z).1
  have hz0apex : (dnslib_zone_load_nsec3param z).apex = z.apex := (load_fields z).2.2.2.1
  obtain ⟨hna, hdp⟩ := hclear n hn
  constructor
  · rw [h1, hz0nodes, hna, Bool.false_or]
  · rw [h2, hz0nodes, hdp, Bool.false_or,
      nodeRrset_of_staticZ hstat n 2, hz0apex]

theorem adjust_flags_characterization_witness :
    ((dnslib_zone_adjust_dnames zoneW).nodes.getD 1 default).nonAuth
        = parentAuthCond (dnslib_zone_adjust_dnames zoneW) 1 ∧
    ((dnslib_zone_adjust_dnames zoneW).nodes.getD 1 default).delegPoint
        = (!(parentAuthCond (dnslib_zone_adjust_dnames zoneW) 1)
           && (nodeRrset (dnslib_zone_adjust_dnames zoneW) 1 2).isSome
           && !((1 : Nat) == zoneW.apex)) :=
  (adjust_flags_characterization zoneW (by decide) (by decide)).1 1 (by decide)

/- ### Idempotence of the adjust pass (C7) -/

theorem node_nonAuth_eta {n : Node} (h : n.nonAuth = true) :
    ({ n with nonAuth := true } : Node) = n := by
  cases n with
  | mk o p r d na n3 =>
    have h' : na = true := h
    rw [show ({ Node.mk o p r d na n3 with nonAuth := true } : Node)
        = Node.mk o p r d true n3 from rfl, h']

theorem node_deleg_eta {n : Node} (h : n.delegPoint = true) :
    ({ n with delegPoint := true } : Node) = n := by
  cases n with
  | mk o p r d na n3 =>
    have h' : d = true := h
    rw [show ({ Node.mk o p r d na n3 with delegPoint := true } : Node)
        = Node.mk o p r true na n3 from rfl, h']

theorem node_nsec3_eta {n : Node} {v : Option Nat} (h : n.nsec3Node = v) :
    ({ n with nsec3Node := v } : Node) = n := by
  cases n with
  | mk o p r d na n3 =>
    have h' : n3 = v := h
    rw [show ({ Node.mk o p r d na n3 with nsec3Node := v } : Node)
        = Node.mk o p r d na v from rfl, h']

theorem updNode_self (s : Zone) (nid : Nat) (v : Node)
    (h : v = s.nodes.getD nid default) : updNode s nid v = s := by
  unfold updNode
  rw [h, list_set_getD_self]

/-- A second visit of `dnslib_zone_adjust_node` to a node that already
satisfies its post-adjust specification does not change the node store. -/
theorem adjust_node_noop (z0 A : Zone) (hz0A : StaticZ z0 A) (m : Nat)
    (hdone : Done z0 A m) (s : Zone) (hnodes : s.nodes = A.nodes)
    (hstat : StaticZ z0 s) :
    (dnslib_zone_adjust_node s m).nodes = s.nodes := by
  unfold dnslib_zone_adjust_node
  simp only
  set z1 := dnslib_zone_adjust_rrsets s m with hz1
  have hd1 : DnamesOnly s z1 := dnamesOnly_adjust_rrsets s m
  have hn1 : z1.nodes = s.nodes := hd1.1
  have hstat1 : StaticZ z0 z1 := staticZ_trans hstat (staticZ_of_dnamesOnly hd1)
  have hgetD : ∀ k, z1.nodes.getD k default = A.nodes.getD k default := by
    intro k
    rw [hn1, hnodes]
  have hcond : parentAuthCond z1 m = parentAuthCond A m :=
    parentAuthCond_congr hgetD m
  have hrrA : nodeRrset z1 m 2 = nodeRrset A m 2 := nodeRrset_congr hgetD m 2
  have hapA : z1.apex = A.apex := by
    rw [hstat1.2.2.1]
    exact hz0A.2.2.1.symm
  have hrr0 : nodeRrset A m 2 = nodeRrset z0 m 2 := nodeRrset_of_staticZ hz0A m 2
  have hap0 : A.apex = z0.apex := hz0A.2.2.1
  have hn2eq : (if parentAuthCond z1 m then
        updNode z1 m { z1.nodes.getD m default with nonAuth := true }
      else if (nodeRrset z1 m 2).isSome && !(m == z1.apex) then
        updNode z1 m { z1.nodes.getD m default with delegPoint := true }
      else z1).nodes = z1.nodes := by
    by_cases hc : parentAuthCond z1 m = true
    · rw [if_pos hc]
      have hval : ({ z1.nodes.getD m default with nonAuth := true } : Node)
          = z1.nodes.getD m default := by
        apply node_nonAuth_eta
        rw [hgetD m, hdone.1, ← hcond, hc]
        simp
      rw [updNode_self z1 m _ hval]
    · rw [if_neg hc]
      by_cases hc2 : ((nodeRrset z1 m 2).isSome && !(m == z1.apex)) = true
      · rw [if_pos hc2]
        have hval : ({ z1.nodes.getD m default with delegPoint := true } : Node)
            = z1.nodes.getD m default := by
          apply node_deleg_eta
          rw [hgetD m, hdone.2.1]
          have hcondA : parentAuthCond A m = false := by
            rw [← hcond]
            exact Bool.eq_false_iff.mpr hc
          rw [hcondA]
          have hb : ((nodeRrset z0 m 2).isSome && !(m == z0.apex)) = true := by
            rw [← hrr0, ← hrrA, ← hap0, ← hapA]
            exact hc2
          rw [Bool.not_false, Bool.true_and, hb]
          simp
        rw [updNode_self z1 m _ hval]
      · rw [if_neg hc2]
  set z2 := (if parentAuthCond z1 m then
      updNode z1 m { z1.nodes.getD m default with nonAuth := true }
    else if (nodeRrset z1 m 2).isSome && !(m == z1.apex) then
      updNode z1 m { z1.nodes.getD m default with delegPoint := true }
    else z1) with hz2
  have hstat2 : StaticZ z0 z2 := by
    rw [hz2]
    by_cases hc : parentAuthCond z1 m = true
    · rw [if_pos hc]
      exact staticZ_trans hstat1 (staticZ_updNode z1 m _ rfl rfl rfl)
    · rw [if_neg hc]
      by_cases hc2 : ((nodeRrset z1 m 2).isSome && !(m == z1.apex)) = true
      · rw [if_pos hc2]
        exact staticZ_trans hstat1 (staticZ_updNode z1 m _ rfl rfl rfl)
      · rw [if_neg hc2]
        exact hstat1
  have hlook : adjustNsec3Lookup z2 (ownerLabels z2 m)
      = adjustNsec3Lookup z0 (ownerLabels z0 m) := by
    rw [ownerLabels_of_staticZ hstat2 m]
    exact adjustNsec3Lookup_stable hstat2 _
  have hval3 : ({ z2.nodes.getD m default with
      nsec3Node := adjustNsec3Lookup z2 (ownerLabels z2 m) } : Node)
      = z2.nodes.getD m default := by
    apply node_nsec3_eta
    rw [hlook]
    have : z2.nodes.getD m default = A.nodes.getD m default := by
      rw [hn2eq, hgetD m]
    rw [this]
    exact hdone.2.2
  rw [updNode_self z2 m _ hval3, hn2eq, hn1]

theorem fold2_nodes (z0 A : Zone) (hz0A : StaticZ z0 A)
    (hdoneAll : ∀ n ∈ z0.tree, Done z0 A n) :
    ∀ (l : List Nat), (∀ m ∈ l, m ∈ z0.tree) → ∀ s, s.nodes = A.nodes → StaticZ z0 s →
      (l.foldl dnslib_zone_adjust_node s).nodes = A.nodes := by
  intro l
  induction l with
  | nil =>
    intro _ s h _
    exact h
  | cons m l' ih =>
    intro hmem s hs hstat
    rw [List.foldl_cons]
    have hm := hmem m (List.mem_cons_self m l')
    have hstep := adjust_node_noop z0 A hz0A m (hdoneAll m hm) s hs hstat
    apply ih (fun k hk => hmem k (List.mem_cons_of_mem m hk))
    · rw [hstep]
      exact hs
    · exact staticZ_trans hstat (adjust_node_effect s m).1

/-- Claim C7: running the adjust pass twice on a well-formed zone yields
the same node store as running it once: the second run changes no node
flags, no nsec3_node links, and no RRSets (so no rdata domain-name
identities, which live in the RRSets' rdata items). -/
theorem adjust_dnames_idempotent (z : Zone) (hwf : zoneWF z = true) :
    (dnslib_zone_adjust_dnames (dnslib_zone_adjust_dnames z)).nodes
      = (dnslib_zone_adjust_dnames z).nodes := by
  obtain ⟨hstat, huntouched, hdone⟩ := adjust_dnames_spec z hwf
  have hlf := load_fields z
  -- run 2's parameter load leaves the state unchanged
  have hload : dnslib_zone_load_nsec3param (dnslib_zone_adjust_dnames z)
      = dnslib_zone_adjust_dnames z := by
    unfold dnslib_zone_load_nsec3param
    have hr : nodeRrset (dnslib_zone_adjust_dnames z)
        (dnslib_zone_adjust_dnames z).apex 51 = nodeRrset z z.apex 51 := by
      rw [hstat.2.2.1, hlf.2.2.2.1]
      rw [show nodeRrset (dnslib_zone_adjust_dnames z) z.apex 51
          = nodeRrset (dnslib_zone_load_nsec3param z) z.apex 51
          from nodeRrset_of_staticZ hstat z.apex 51]
      unfold nodeRrset
      rw [hlf.1]
    rw [hr]
    split
    next rs hm =>
      have hp : (dnslib_zone_adjust_dnames z).nsec3Params = paramsFromRrset rs := by
        rw [hstat.2.2.2.1]
        simp only [dnslib_zone_load_nsec3param, hm]
      rw [← hp]
    next hm =>
      have hp : (dnslib_zone_adjust_dnames z).nsec3Params = ⟨0, 0, 0, 0⟩ := by
        rw [hstat.2.2.2.1]
        simp only [dnslib_zone_load_nsec3param, hm]
      rw [← hp]
  have hrun2 : dnslib_zone_adjust_dnames (dnslib_zone_adjust_dnames z)
      = ((dnslib_zone_adjust_dnames z).tree.foldl dnslib_zone_adjust_node
          (dnslib_zone_adjust_dnames z)).nsec3Tree.foldl
          dnslib_zone_adjust_nsec3_node
          ((dnslib_zone_adjust_dnames z).tree.foldl dnslib_zone_adjust_node
            (dnslib_zone_adjust_dnames z)) := by
    conv =>
      lhs
      rw [dnslib_zone_adjust_dnames]
    rw [hload]
  rw [hrun2]
  have hdone0 : ∀ n ∈ (dnslib_zone_load_nsec3param z).tree,
      Done (dnslib_zone_load_nsec3param z) (dnslib_zone_adjust_dnames z) n := by
    intro n hn
    apply hdone
    rw [← hlf.2.1]
    exact hn
  have hfold : ((dnslib_zone_adjust_dnames z).tree.foldl dnslib_zone_adjust_node
      (dnslib_zone_adjust_dnames z)).nodes = (dnslib_zone_adjust_dnames z).nodes := by
    apply fold2_nodes (dnslib_zone_load_nsec3param z) (dnslib_zone_adjust_dnames z)
      hstat hdone0
    · intro m hm
      rw [hstat.1] at hm
      exact hm
    · rfl
    · exact hstat
  have hd3 : DnamesOnly
      ((dnslib_zone_adjust_dnames z).tree.foldl dnslib_zone_adjust_node
        (dnslib_zone_adjust_dnames z))
      (((dnslib_zone_adjust_dnames z).tree.foldl dnslib_zone_adjust_node
          (dnslib_zone_adjust_dnames z)).nsec3Tree.foldl
          dnslib_zone_adjust_nsec3_node
          ((dnslib_zone_adjust_dnames z).tree.foldl dnslib_zone_adjust_node
            (dnslib_zone_adjust_dnames z))) := by
    apply foldl_rel DnamesOnly dnamesOnly_refl (fun _ _ _ => dnamesOnly_trans)
    exact fun a b => dnamesOnly_adjust_nsec3_node a b
  rw [hd3.1]
  exact hfold

theorem adjust_dnames_idempotent_witness :
    (dnslib_zone_adjust_dnames (dnslib_zone_adjust_dnames zoneW)).nodes
      = (dnslib_zone_adjust_dnames zoneW).nodes :=
  adjust_dnames_idempotent zoneW (by decide)

/- ### Rdata back-link redirection (C2) -/

/-- The property the adjust pass establishes for an rdata dname item:
when the item's name has a matching node in the plain tree, the item
dname's `node` back-link equals the back-link of the matched node's
interned owner dname (the item itself is never replaced). -/
def itemInterned (s : Zone) (d : Nat) : Prop :=
  d < s.dnames.length →
  ∀ n, dnslib_zone_find_node s (labelsOf s d) = some n →
    dnodeOf s d = dnodeOf s ((s.nodes.getD n default).owner)

theorem find_node_some {s : Zone} {ls : List Label} {n : Nat}
    (h : dnslib_zone_find_node s ls = some n) : ownerLabels s n = ls := by
  unfold dnslib_zone_find_node at h
  have := List.find?_some h
  simpa using this

theorem dnodeOf_upd_ne (s : Zone) (e : Nat) (v : Option Nat) {x : Nat}
    (hx : x ≠ e) : dnodeOf (updDnameNode s e v) x = dnodeOf s x := by
  unfold dnodeOf updDnameNode
  simp only
  rw [getD_set_ne _ _ _ _ (fun hc => hx hc.symm)]

theorem dnodeOf_upd_self (s : Zone) (e : Nat) (v : Option Nat)
    (hlt : e < s.dnames.length) : dnodeOf (updDnameNode s e v) e = v := by
  unfold dnodeOf updDnameNode
  simp only
  rw [getD_set_eq _ _ _ hlt]

theorem find_node_upd (s : Zone) (e : Nat) (v : Option Nat) (ls : List Label) :
    dnslib_zone_find_node (updDnameNode s e v) ls = dnslib_zone_find_node s ls :=
  find_node_stable (s := s) (t := updDnameNode s e v) rfl
    (ownerLabels_of_dnamesOnly (dnamesOnly_updDnameNode s e v)) ls

/-- The owner labels of a node are the labels of its owner dname. -/
theorem ownerLabels_eq_labelsOf (s : Zone) (n : Nat) :
    ownerLabels s n = labelsOf s ((s.nodes.getD n default).owner) := rfl

/-- Preservation: adjusting any rdata item keeps `itemInterned` for every
dname (the adjusted target re-establishes it, and the source of a copy —
the interned owner of the first node matching its labels — is never
itself a mutation target). -/
theorem itemInterned_pres_item (s : Zone) (rd : List RdataItem) (pos d : Nat)
    (h : itemInterned s d) :
    itemInterned (dnslib_zone_adjust_rdata_item s rd pos) d := by
  match hget : rd.get? pos with
  | none =>
    have hred : dnslib_zone_adjust_rdata_item s rd pos = s := by
      simp only [dnslib_zone_adjust_rdata_item, hget]
    rw [hred]
    exact h
  | some (.raw b) =>
    have hred : dnslib_zone_adjust_rdata_item s rd pos = s := by
      simp only [dnslib_zone_adjust_rdata_item, hget]
    rw [hred]
    exact h
  | some (.dname e) =>
    match hfind : dnslib_zone_find_node s (labelsOf s e) with
    | none =>
      have hred : dnslib_zone_adjust_rdata_item s rd pos = s := by
        simp only [dnslib_zone_adjust_rdata_item, hget, hfind]
      rw [hred]
      exact h
    | some ne =>
      by_cases howner : (s.nodes.getD ne default).owner = e
      · have hred : dnslib_zone_adjust_rdata_item s rd pos = s := by
          simp only [dnslib_zone_adjust_rdata_item, hget, hfind, if_pos howner]
        rw [hred]
        exact h
      · have hred : dnslib_zone_adjust_rdata_item s rd pos
            = updDnameNode s e (dnodeOf s ((s.nodes.getD ne default).owner)) := by
          simp only [dnslib_zone_adjust_rdata_item, hget, hfind, if_neg howner]
        rw [hred]
        intro hdl n hfind_d
        have hlen : (updDnameNode s e
            (dnodeOf s ((s.nodes.getD ne default).owner))).dnames.length
            = s.dnames.length := by
          simp [updDnameNode]
        rw [hlen] at hdl
        rw [show labelsOf (updDnameNode s e
            (dnodeOf s ((s.nodes.getD ne default).owner))) d = labelsOf s d
          from labelsOf_updDnameNode s e _ d, find_node_upd] at hfind_d
        have hown_n : ((updDnameNode s e
            (dnodeOf s ((s.nodes.getD ne default).owner))).nodes.getD n default).owner
            = (s.nodes.getD n default).owner := rfl
        rw [hown_n]
        by_cases hde : d = e
        · subst hde
          rw [hfind] at hfind_d
          injection hfind_d with hnne
          subst hnne
          rw [dnodeOf_upd_self s d _ hdl,
            dnodeOf_upd_ne s d _ (fun hc => howner hc)]
        · have hres := h hdl n hfind_d
          have howner_ne : (s.nodes.getD n default).owner ≠ e := by
            intro hc
            have h1 : labelsOf s e = labelsOf s d := by
              rw [← hc, ← ownerLabels_eq_labelsOf]
              exact find_node_some hfind_d
            rw [h1, hfind_d] at hfind
            injection hfind with hne2
            rw [← hne2] at howner
            exact howner hc
          rw [dnodeOf_upd_ne s e _ hde, dnodeOf_upd_ne s e _ howner_ne]
          exact hres

/-- Establishment: adjusting a dname-kind item makes `itemInterned` hold
for that item. -/
theorem itemInterned_est_item (s : Zone) (rd : List RdataItem) (pos d : Nat)
    (hget : rd.get? pos = some (.dname d)) :
    itemInterned (dnslib_zone_adjust_rdata_item s rd pos) d := by
  match hfind : dnslib_zone_find_node s (labelsOf s d) with
  | none =>
    have hred : dnslib_zone_adjust_rdata_item s rd pos = s := by
      simp only [dnslib_zone_adjust_rdata_item, hget, hfind]
    rw [hred]
    intro hdl n hfind_d
    rw [hfind_d] at hfind
    cases hfind
  | some ne =>
    by_cases howner : (s.nodes.getD ne default).owner = d
    · have hred : dnslib_zone_adjust_rdata_item s rd pos = s := by
        simp only [dnslib_zone_adjust_rdata_item, hget, hfind, if_pos howner]
      rw [hred]
      intro hdl n hfind_d
      rw [hfind] at hfind_d
      injection hfind_d with hne
      rw [← hne, howner]
    · have hred : dnslib_zone_adjust_rdata_item s rd pos
          = updDnameNode s d (dnodeOf s ((s.nodes.getD ne default).owner)) := by
        simp only [dnslib_zone_adjust_rdata_item, hget, hfind, if_neg howner]
      rw [hred]
      intro hdl n hfind_d
      have hlen : (updDnameNode s d
          (dnodeOf s ((s.nodes.getD ne default).owner))).dnames.length
          = s.dnames.length := by
        simp [updDnameNode]
      rw [hlen] at hdl
      rw [show labelsOf (updDnameNode s d
          (dnodeOf s ((s.nodes.getD ne default).owner))) d = labelsOf s d
        from labelsOf_updDnameNode s d _ d, find_node_upd] at hfind_d
      rw [hfind] at hfind_d
      injection hfind_d with hnne
      have hown_n : ((updDnameNode s d
          (dnodeOf s ((s.nodes.getD ne default).owner))).nodes.getD n default).owner
          = (s.nodes.getD n default).owner := rfl
      rw [hown_n, ← hnne]
      rw [dnodeOf_upd_self s d _ hdl,
        dnodeOf_upd_ne s d _ (fun hc => howner hc)]

theorem updNode_owner_field (s : Zone) (nid : Nat) (v : Node)
    (hown : v.owner = (s.nodes.getD nid default).owner) (m : Nat) :
    ((updNode s nid v).nodes.getD m default).owner
      = (s.nodes.getD m default).owner := by
  rw [updNode_getD]
  by_cases hc : nid = m ∧ nid < s.nodes.length
  · rw [if_pos hc, hown, hc.1]
  · rw [if_neg hc]

theorem updNode_ownerLabels (s : Zone) (nid : Nat) (v : Node)
    (hown : v.owner = (s.nodes.getD nid default).owner) (m : Nat) :
    ownerLabels (updNode s nid v) m = ownerLabels s m := by
  unfold ownerLabels
  rw [show ((updNode s nid v).nodes.getD m default).owner
      = (s.nodes.getD m default).owner from updNode_owner_field s nid v hown m]
  rfl

/-- Preservation of `itemInterned` by a node-store update that keeps the
owner field. -/
theorem itemInterned_updNode (s : Zone) (nid : Nat) (v : Node)
    (hown : v.owner = (s.nodes.getD nid default).owner) (d : Nat)
    (h : itemInterned s d) : itemInterned (updNode s nid v) d := by
  intro hdl n hfind
  have hlab : labelsOf (updNode s nid v) d = labelsOf s d := rfl
  rw [hlab, find_node_stable (s := s) (t := updNode s nid v) rfl
    (updNode_ownerLabels s nid v hown)] at hfind
  have hdl' : d < s.dnames.length := hdl
  have hres := h hdl' n hfind
  rw [show ((updNode s nid v).nodes.getD n default).owner
      = (s.nodes.getD n default).owner from updNode_owner_field s nid v hown n]
  exact hres

theorem mem_foldr_append {β : Type} (g : β → List Nat) :
    ∀ (L : List β) (d : Nat),
      (d ∈ L.foldr (fun x acc => g x ++ acc) [] ↔ ∃ x ∈ L, d ∈ g x) := by
  intro L
  induction L with
  | nil => intro d; simp
  | cons x xs ih =>
    intro d
    simp only [List.foldr_cons, List.mem_append, ih, List.mem_cons]
    constructor
    · intro h
      rcases h with h | ⟨y, hy, hd⟩
      · exact ⟨x, Or.inl rfl, h⟩
      · exact ⟨y, Or.inr hy, hd⟩
    · intro h
      rcases h with ⟨y, hy | hy, hd⟩
      · rw [← hy]; exact Or.inl hd
      · exact Or.inr ⟨y, hy, hd⟩

/-- Establish a property at the fold step for a member of the fold list and
carry it to the end, under an invariant `Q` preserved by every step. -/
theorem foldl_establish_inv {β : Type} (f : Zone → β → Zone)
    (P Q : Zone → Prop) (hq : ∀ s y, Q s → Q (f s y))
    (hpres : ∀ s y, P s → P (f s y)) {x : β} {L : List β} (hx : x ∈ L)
    (hest : ∀ s, Q s → P (f s x)) :
    ∀ s : Zone, Q s → P (L.foldl f s) := by
  obtain ⟨L1, L2, hL⟩ := List.append_of_mem hx
  subst hL
  intro s hQ
  rw [List.foldl_append, List.foldl_cons]
  have hQ1 : Q (L1.foldl f s) :=
    foldl_rel (fun a b => Q a → Q b) (fun a h => h)
      (fun a b c h1 h2 h => h2 (h1 h)) f (fun a y h => hq a y h) L1 s hQ
  have h0 : P (f (L1.foldl f s) x) := hest _ hQ1
  exact foldl_rel (fun a b => P a → P b) (fun a h => h)
    (fun a b c h1 h2 h => h2 (h1 h)) f (fun a y h => hpres a y h) L2 _ h0

/-- The dname item stored at a dname-kind position of one RDATA. -/
def posItem (rtype : Nat) (rd : List RdataItem) (i : Nat) : Option Nat :=
  if isDnameKind ((rrtypeWireformat rtype).getD i .other) then
    match rd.get? i with
    | some (.dname did) => some did
    | _ => none
  else none

/-- All dname items at dname-kind positions of one RDATA. -/
def rdItemsAt (rtype : Nat) (rd : List RdataItem) : List Nat :=
  (List.range rd.length).filterMap (posItem rtype rd)

/-- All dname items in the RDATAs of one RRSet body. -/
def rrsetMainItems (rtype : Nat) (rdatas : List (List RdataItem)) : List Nat :=
  rdatas.foldr (fun rd acc => rdItemsAt rtype rd ++ acc) []

/-- All dname items of an RRSet, including its attached RRSIGs. -/
def rrsetItems (rs : RRSetD) : List Nat :=
  rrsetMainItems rs.rtype rs.rdatas ++
    (match rs.rrsigs with
     | some sg => rrsetMainItems 46 sg
     | none => [])

/-- All dname items of the RRSets of a node. -/
def nodeItems (z : Zone) (nid : Nat) : List Nat :=
  (z.nodes.getD nid default).rrsets.foldr (fun rs acc => rrsetItems rs ++ acc) []

/-- All dname items of RRs stored at plain-tree nodes of the zone. -/
def zoneItems (z : Zone) : List Nat :=
  z.tree.foldr (fun nid acc => nodeItems z nid ++ acc) []

theorem interned_pres_positions (s : Zone) (rtype : Nat) (rd : List RdataItem)
    (d : Nat) (h : itemInterned s d) :
    itemInterned (adjustRdataPositions s rtype rd) d := by
  unfold adjustRdataPositions
  refine foldl_rel (fun a b => ∀ e, itemInterned a e → itemInterned b e)
    (fun a e h => h) (fun a b c h1 h2 e he => h2 e (h1 e he)) _ ?_
    (List.range rd.length) s d h
  intro a i e he
  by_cases hk : isDnameKind ((rrtypeWireformat rtype).getD i .other) = true
  · simp only [hk, if_true]
    exact itemInterned_pres_item a rd i e he
  · simp only [Bool.eq_false_iff.mpr hk, Bool.false_eq_true, if_false]
    exact he

theorem interned_pres_in_rrset (s : Zone) (rtype : Nat)
    (rdatas : List (List RdataItem)) (d : Nat) (h : itemInterned s d) :
    itemInterned (dnslib_zone_adjust_rdata_in_rrset s rtype rdatas) d := by
  unfold dnslib_zone_adjust_rdata_in_rrset
  refine foldl_rel (fun a b => ∀ e, itemInterned a e → itemInterned b e)
    (fun a e h => h) (fun a b c h1 h2 e he => h2 e (h1 e he)) _ ?_ rdatas s d h
  intro a rd e he
  exact interned_pres_positions a rtype rd e he

theorem interned_pres_rrsets (s : Zone) (nid : Nat) (d : Nat)
    (h : itemInterned s d) : itemInterned (dnslib_zone_adjust_rrsets s nid) d := by
  unfold dnslib_zone_adjust_rrsets
  refine foldl_rel (fun a b => ∀ e, itemInterned a e → itemInterned b e)
    (fun a e h => h) (fun a b c h1 h2 e he => h2 e (h1 e he)) _ ?_
    (s.nodes.getD nid default).rrsets s d h
  intro a rs e he
  simp only
  split
  · exact interned_pres_in_rrset _ 46 _ e
      (interned_pres_in_rrset a rs.rtype rs.rdatas e he)
  · exact interned_pres_in_rrset a rs.rtype rs.rdatas e he

theorem interned_pres_nsec3_node (s : Zone) (nid : Nat) (d : Nat)
    (h : itemInterned s d) :
    itemInterned (dnslib_zone_adjust_nsec3_node s nid) d := by
  unfold dnslib_zone_adjust_nsec3_node
  refine foldl_rel (fun a b => ∀ e, itemInterned a e → itemInterned b e)
    (fun a e h => h) (fun a b c h1 h2 e he => h2 e (h1 e he)) _ ?_
    (s.nodes.getD nid default).rrsets s d h
  intro a rs e he
  split
  · exact interned_pres_in_rrset a 46 _ e he
  · exact he

theorem interned_pres_adjust_node (s : Zone) (nid : Nat) (d : Nat)
    (h : itemInterned s d) : itemInterned (dnslib_zone_adjust_node s nid) d := by
  unfold dnslib_zone_adjust_node
  simp only
  set z1 := dnslib_zone_adjust_rrsets s nid with hz1
  have h1 : itemInterned z1 d := by
    rw [hz1]
    exact interned_pres_rrsets s nid d h
  set z2 := (if parentAuthCond z1 nid then
      updNode z1 nid { z1.nodes.getD nid default with nonAuth := true }
    else if (nodeRrset z1 nid 2).isSome && !(nid == z1.apex) then
      updNode z1 nid { z1.nodes.getD nid default with delegPoint := true }
    else z1) with hz2
  have h2 : itemInterned z2 d := by
    rw [hz2]
    by_cases hc : parentAuthCond z1 nid = true
    · rw [if_pos hc]
      exact itemInterned_updNode z1 nid
        { z1.nodes.getD nid default with nonAuth := true } rfl d h1
    · rw [if_neg hc]
      by_cases hc2 : ((nodeRrset z1 nid 2).isSome && !(nid == z1.apex)) = true
      · rw [if_pos hc2]
        exact itemInterned_updNode z1 nid
          { z1.nodes.getD nid default with delegPoint := true } rfl d h1
      · rw [if_neg hc2]
        exact h1
  exact itemInterned_updNode z2 nid
    { z2.nodes.getD nid default with
      nsec3Node := adjustNsec3Lookup z2 (ownerLabels z2 nid) } rfl d h2

theorem interned_est_positions (s : Zone) (rtype : Nat) (rd : List RdataItem)
    {d : Nat} (hd : d ∈ rdItemsAt rtype rd) :
    itemInterned (adjustRdataPositions s rtype rd) d := by
  unfold rdItemsAt at hd
  obtain ⟨i, hi, hpi⟩ := List.mem_filterMap.mp hd
  unfold posItem at hpi
  by_cases hk : isDnameKind ((rrtypeWireformat rtype).getD i .other) = true
  · rw [if_pos hk] at hpi
    match hget : rd.get? i with
    | none =>
      simp only [hget] at hpi
      exact Option.noConfusion hpi
    | some (.raw b) =>
      simp only [hget] at hpi
      exact Option.noConfusion hpi
    | some (.dname did) =>
      simp only [hget, Option.some.injEq] at hpi
      subst hpi
      unfold adjustRdataPositions
      refine foldl_establish_inv _ (fun t => itemInterned t did) (fun _ => True)
        (fun _ _ _ => trivial) ?_ hi ?_ s trivial
      · intro t j ht
        by_cases hk' : isDnameKind ((rrtypeWireformat rtype).getD j .other) = true
        · simp only [hk', if_true]
          exact itemInterned_pres_item t rd j did ht
        · simp only [Bool.eq_false_iff.mpr hk', Bool.false_eq_true, if_false]
          exact ht
      · intro t _
        simp only [hk, if_true]
        exact itemInterned_est_item t rd i did hget
  · rw [if_neg hk] at hpi
    cases hpi

theorem interned_est_in_rrset (s : Zone) (rtype : Nat)
    (rdatas : List (List RdataItem)) {d : Nat}
    (hd : d ∈ rrsetMainItems rtype rdatas) :
    itemInterned (dnslib_zone_adjust_rdata_in_rrset s rtype rdatas) d := by
  unfold rrsetMainItems at hd
  rw [mem_foldr_append] at hd
  obtain ⟨rd, hrd, hdi⟩ := hd
  unfold dnslib_zone_adjust_rdata_in_rrset
  exact foldl_establish_inv _ (fun t => itemInterned t d) (fun _ => True)
    (fun _ _ _ => trivial)
    (fun t y h => interned_pres_positions t rtype y d h) hrd
    (fun t _ => interned_est_positions t rtype rd hdi) s trivial

theorem interned_est_rrsets (s : Zone) (nid : Nat) {d : Nat}
    (hd : d ∈ nodeItems s nid) :
    itemInterned (dnslib_zone_adjust_rrsets s nid) d := by
  unfold nodeItems at hd
  rw [mem_foldr_append] at hd
  obtain ⟨rs, hrs, hdi⟩ := hd
  unfold dnslib_zone_adjust_rrsets
  refine foldl_establish_inv _ (fun t => itemInterned t d) (fun _ => True)
    (fun _ _ _ => trivial) ?_ hrs ?_ s trivial
  · intro t y ht
    simp only
    split
    · exact interned_pres_in_rrset _ 46 _ d
        (interned_pres_in_rrset t y.rtype y.rdatas d ht)
    · exact interned_pres_in_rrset t y.rtype y.rdatas d ht
  · intro t _
    show itemInterned
      (match rs.rrsigs with
       | some sigs => dnslib_zone_adjust_rdata_in_rrset
           (dnslib_zone_adjust_rdata_in_rrset t rs.rtype rs.rdatas) 46 sigs
       | none => dnslib_zone_adjust_rdata_in_rrset t rs.rtype rs.rdatas) d
    unfold rrsetItems at hdi
    rw [List.mem_append] at hdi
    rcases hdi with hmain | hsig
    · cases hsg : rs.rrsigs with
      | none =>
        simp only [hsg]
        exact interned_est_in_rrset t rs.rtype rs.rdatas hmain
      | some sigs =>
        simp only [hsg]
        exact interned_pres_in_rrset _ 46 sigs d
          (interned_est_in_rrset t rs.rtype rs.rdatas hmain)
    · cases hsg : rs.rrsigs with
      | none =>
        rw [hsg] at hsig
        cases hsig
      | some sigs =>
        rw [hsg] at hsig
        simp only [hsg]
        exact interned_est_in_rrset _ 46 sigs hsig

theorem interned_est_adjust_node (z0 s : Zone) (nid : Nat) {d : Nat}
    (hstat : StaticZ z0 s) (hd : d ∈ nodeItems z0 nid) :
    itemInterned (dnslib_zone_adjust_node s nid) d := by
  have hd' : d ∈ nodeItems s nid := by
    unfold nodeItems at hd ⊢
    rw [(hstat.2.2.2.2.2.2.2 nid).2.2]
    exact hd
  unfold dnslib_zone_adjust_node
  simp only
  set z1 := dnslib_zone_adjust_rrsets s nid with hz1
  have h1 : itemInterned z1 d := by
    rw [hz1]
    exact interned_est_rrsets s nid hd'
  set z2 := (if parentAuthCond z1 nid then
      updNode z1 nid { z1.nodes.getD nid default with nonAuth := true }
    else if (nodeRrset z1 nid 2).isSome && !(nid == z1.apex) then
      updNode z1 nid { z1.nodes.getD nid default with delegPoint := true }
    else z1) with hz2
  have h2 : itemInterned z2 d := by
    rw [hz2]
    by_cases hc : parentAuthCond z1 nid = true
    · rw [if_pos hc]
      exact itemInterned_updNode z1 nid
        { z1.nodes.getD nid default with nonAuth := true } rfl d h1
    · rw [if_neg hc]
      by_cases hc2 : ((nodeRrset z1 nid 2).isSome && !(nid == z1.apex)) = true
      · rw [if_pos hc2]
        exact itemInterned_updNode z1 nid
          { z1.nodes.getD nid default with delegPoint := true } rfl d h1
      · rw [if_neg hc2]
        exact h1
  exact itemInterned_updNode z2 nid
    { z2.nodes.getD nid default with
      nsec3Node := adjustNsec3Lookup z2 (ownerLabels z2 nid) } rfl d h2

/-- A wire message whose only RR is a TSIG sitting in the ANSWER section;
the ADDITIONAL section is empty. -/
def wireC5 : PWire :=
  { ancount := 1, nscount := 0, arcount := 0,
    rrs := [⟨9, 250, true, true⟩], trailing := 0 }

/-- Counterexample to claim C5: the placement check in
`knot_pkt_parse_payload` only fires when the ADDITIONAL section is
nonempty (`ar->count > 0 && pkt->tsig_rr != ar->rr[ar->count-1]`), so a
message whose TSIG is an ANSWER RR with an empty ADDITIONAL section
parses successfully even though its TSIG is not the last RR of
ADDITIONAL. -/
theorem parse_accepts_tsig_in_answer :
    wireC5.rrs.countP (fun r => r.rtype == 250) = 1 ∧
    wireC5.arcount = 0 ∧
    (knot_pkt_parse_payload wireC5 false).isOk = true := by
  decide

/-- Number of TSIG RRSets appended to the packet. -/
def tsigCount (l : List PRR) : Nat := l.countP (fun r => r.rtype == 250)

/-- Parser-state invariant backing the amended C5: the TSIG handle points
at a TSIG RRSet, and at most one TSIG RRSet is ever appended (a second
appended TSIG raises EMALF). -/
def TsigInv (st : PSt) : Prop :=
  (st.tsigIdx = none → tsigCount st.rrsets = 0) ∧
  (∀ t, st.tsigIdx = some t →
    t < st.rrsets.length ∧ (st.rrsets.getD t default).rtype = 250) ∧
  tsigCount st.rrsets ≤ 1

theorem tsigInv_parse_rr {noMerge : Bool} {st st' : PSt}
    (hinv : TsigInv st) (h : knot_pkt_parse_rr noMerge st = .ok st') :
    TsigInv st' := by
  obtain ⟨hnone, hsome, hbound⟩ := hinv
  match hrem : st.rem with
  | [] =>
    simp only [knot_pkt_parse_rr, hrem] at h
    by_cases htr : st.trailing > 0 <;> simp [htr] at h
  | rr :: rest =>
    simp only [knot_pkt_parse_rr, hrem] at h
    by_cases hw : rr.wireOk = false
    · simp [hw] at h
    · rw [if_neg hw] at h
      by_cases hmer : (decide (noMerge = false) &&
          st.rrsets.any fun q => q.hdrKey == rr.hdrKey && q.rtype == rr.rtype) = true
      · rw [if_pos hmer] at h
        cases h
        exact ⟨hnone, hsome, hbound⟩
      · rw [if_neg hmer] at h
        by_cases h250 : rr.rtype = 250
        · rw [if_pos h250] at h
          by_cases hts : st.tsigIdx.isSome = true
          · simp [hts] at h
          · rw [if_neg (by simpa using hts)] at h
            by_cases htok : rr.tsigOk = false
            · simp [htok] at h
            · rw [if_neg htok] at h
              cases h
              have htn : st.tsigIdx = none := Option.not_isSome_iff_eq_none.mp
                (by simpa using hts)
              have hc0 : tsigCount st.rrsets = 0 := hnone htn
              have hcnt : tsigCount (st.rrsets ++ [rr]) = 1 := by
                simp only [tsigCount, List.countP_append] at hc0 ⊢
                simp [hc0, List.countP_cons, h250, tsigCount]
              refine ⟨?_, ?_, ?_⟩
              · intro hcon; simp at hcon
              · intro t ht
                simp only [Option.some_inj] at ht
                subst ht
                constructor
                · simp
                · have : st.rrsets.length + 1 - 1 = st.rrsets.length := by omega
                  simp only [List.length_append, List.length_singleton, this]
                  rw [List.getD_eq_getElem?_getD, List.getElem?_append_right (Nat.le_refl _)]
                  simpa using h250
              · exact Nat.le_of_eq hcnt
        · rw [if_neg h250] at h
          cases h
          have hcnt : tsigCount (st.rrsets ++ [rr]) = tsigCount st.rrsets := by
            simp only [tsigCount, List.countP_append, List.countP_cons]
            simp [h250]
          refine ⟨?_, ?_, ?_⟩
          · intro htn
            rw [hcnt]
            exact hnone htn
          · intro t ht
            obtain ⟨hlt, hty⟩ := hsome t ht
            refine ⟨Nat.lt_of_lt_of_le hlt (by simp), ?_⟩
            rw [List.getD_eq_getElem?_getD, List.getElem?_append_left hlt,
              ← List.getD_eq_getElem?_getD]
            exact hty
          · rw [hcnt]
            exact hbound

theorem tsigInv_parse_section {noMerge : Bool} :
    ∀ {n : Nat} {st st' : PSt}, TsigInv st →
      knot_pkt_parse_section noMerge st n = .ok st' → TsigInv st' := by
  intro n
  induction n with
  | zero =>
    intro st st' hinv h
    simp only [knot_pkt_parse_section] at h
    cases h
    exact hinv
  | succ n' ih =>
    intro st st' hinv h
    simp only [knot_pkt_parse_section] at h
    match h1 : knot_pkt_parse_rr noMerge st with
    | .error e => rw [h1] at h; cases h
    | .ok st1 =>
      rw [h1] at h
      exact ih (tsigInv_parse_rr hinv h1) h

/-- Claim C5 as amended: when the payload parses successfully, at most
one TSIG RRSet was appended (a second appended TSIG raises EMALF, as does
invalid TSIG RDATA), the TSIG handle points at a TSIG RRSet, and either
the ADDITIONAL section is empty or the TSIG is its last RRSet.  A TSIG
sitting in an earlier section with an empty ADDITIONAL section is NOT
rejected; rejection happens only when the ADDITIONAL section is nonempty
and its last RRSet is not the TSIG. -/
theorem parse_payload_tsig_placement (w : PWire) (noMerge : Bool)
    (out : ParsedOut) (h : knot_pkt_parse_payload w noMerge = .ok out) :
    tsigCount out.rrsets ≤ 1 ∧
    (∀ t, out.tsigIdx = some t →
      t < out.rrsets.length ∧ (out.rrsets.getD t default).rtype = 250 ∧
      (out.arCount = 0 ∨ t = out.arStart + out.arCount - 1)) := by
  have hinv0 : TsigInv ⟨w.rrs, w.trailing, [], 0, none⟩ := by
    refine ⟨fun _ => rfl, ?_, by simp [tsigCount]⟩
    intro t ht
    cases ht
  simp only [knot_pkt_parse_payload] at h
  match hA : knot_pkt_parse_section noMerge ⟨w.rrs, w.trailing, [], 0, none⟩ w.ancount with
  | .error e => exact absurd h (by simp [hA])
  | .ok stA =>
    simp only [hA] at h
    match hU : knot_pkt_parse_section noMerge { stA with curCount := 0 } w.nscount with
    | .error e => exact absurd h (by simp [hU])
    | .ok stU =>
      simp only [hU] at h
      match hR : knot_pkt_parse_section noMerge { stU with curCount := 0 } w.arcount with
      | .error e => exact absurd h (by simp [hR])
      | .ok stR =>
        simp only [hR] at h
        have hinvA : TsigInv stA := tsigInv_parse_section hinv0 hA
        have hinvA' : TsigInv { stA with curCount := 0 } :=
          ⟨hinvA.1, hinvA.2.1, hinvA.2.2⟩
        have hinvU : TsigInv stU := tsigInv_parse_section hinvA' hU
        have hinvU' : TsigInv { stU with curCount := 0 } :=
          ⟨hinvU.1, hinvU.2.1, hinvU.2.2⟩
        have hinvR : TsigInv stR := tsigInv_parse_section hinvU' hR
        by_cases hmis : tsigMisplaced stR.tsigIdx stU.rrsets.length stR.curCount = true
        · rw [if_pos hmis] at h; cases h
        · rw [if_neg hmis] at h
          by_cases hrem : stR.rem.length ≠ 0 ∨ stR.trailing ≠ 0
          · rw [if_pos hrem] at h; cases h
          · rw [if_neg hrem] at h
            cases h
            refine ⟨hinvR.2.2, ?_⟩
            intro t ht
            have ht' : stR.tsigIdx = some t := ht
            obtain ⟨hlt, hty⟩ := hinvR.2.1 t ht'
            refine ⟨hlt, hty, ?_⟩
            rw [ht'] at hmis
            simp only [tsigMisplaced] at hmis
            by_cases har : stR.curCount = 0
            · exact Or.inl har
            · right
              by_contra hne
              apply hmis
              simp only [Bool.and_eq_true, decide_eq_true_eq, Bool.not_eq_true',
                beq_eq_false_iff_ne]
              exact ⟨Nat.pos_of_ne_zero har, hne⟩

/-- A well-placed TSIG message: one A record in ANSWER and the TSIG as
the only (hence last) ADDITIONAL RR. -/
def wireC5ok : PWire :=
  { ancount := 1, nscount := 0, arcount := 1,
    rrs := [⟨3, 1, true, true⟩, ⟨9, 250, true, true⟩], trailing := 0 }

theorem parse_payload_tsig_placement_witness :
    tsigCount [PRR.mk 3 1 true true, PRR.mk 9 250 true true] ≤ 1 ∧
    (∀ t, (some 1 : Option Nat) = some t →
      t < [PRR.mk 3 1 true true, PRR.mk 9 250 true true].length ∧
      ([PRR.mk 3 1 true true, PRR.mk 9 250 true true].getD t default).rtype = 250 ∧
      ((1 : Nat) = 0 ∨ t = 1 + 1 - 1)) :=
  parse_payload_tsig_placement wireC5ok false ⟨[⟨3, 1, true, true⟩, ⟨9, 250, true, true⟩], some 1, 1, 1⟩ (by rfl)

/-- C2 counterexample: in `zoneW` node 1 holds an NS RRSet whose rdata
dname item is object 3; the name of object 3 matches node 2 of the plain
tree, and node 2's interned owner is object 2 ≠ 3. After the whole
adjust pass the RR still stores object 3 — the rdata's domain name is
NOT identity-equal to the interned owner (the commented-out
`dnslib_rdata_item_set_dname` call is never executed); only object 3's
`node` back-link was redirected to match object 2's. -/
theorem adjust_backlink_not_identity :
    ((dnslib_zone_adjust_dnames zoneW).nodes.getD 1 default).rrsets
        = [⟨2, [[RdataItem.dname 3]], none⟩] ∧
    dnslib_zone_find_node (dnslib_zone_adjust_dnames zoneW)
      (labelsOf (dnslib_zone_adjust_dnames zoneW) 3) = some 2 ∧
    ((dnslib_zone_adjust_dnames zoneW).nodes.getD 2 default).owner = 2 ∧
    (3 : Nat) ≠ 2 ∧
    dnodeOf (dnslib_zone_adjust_dnames zoneW) 3
      = dnodeOf (dnslib_zone_adjust_dnames zoneW) 2 := by
  refine ⟨?_, ?_, ?_, ?_, ?_⟩ <;> decide

/-- Claim C2 (amended): the adjust pass never replaces rdata dname items
— every node of the adjusted zone keeps exactly the RRSets of the input
zone — and instead, for every dname item stored at a plain-tree node,
the adjusted zone satisfies `itemInterned`: when the item's name has a
matching node in the plain tree, the item dname's `node` back-link
equals the back-link of that node's interned owner dname
(`dname->node = n->owner->node`, zone.c adjust_rdata_item). -/
theorem adjust_backlink_amended (z : Zone) :
    (∀ m, ((dnslib_zone_adjust_dnames z).nodes.getD m default).rrsets
        = (z.nodes.getD m default).rrsets) ∧
    ∀ d, d ∈ zoneItems z → itemInterned (dnslib_zone_adjust_dnames z) d := by
  have hlf := load_fields z
  have hs1 : StaticZ (dnslib_zone_load_nsec3param z)
      ((dnslib_zone_load_nsec3param z).tree.foldl dnslib_zone_adjust_node
        (dnslib_zone_load_nsec3param z)) :=
    foldl_rel StaticZ staticZ_refl (fun _ _ _ => staticZ_trans)
      dnslib_zone_adjust_node (fun a b => (adjust_node_effect a b).1)
      (dnslib_zone_load_nsec3param z).tree (dnslib_zone_load_nsec3param z)
  have hd3 : DnamesOnly
      ((dnslib_zone_load_nsec3param z).tree.foldl dnslib_zone_adjust_node
        (dnslib_zone_load_nsec3param z))
      (dnslib_zone_adjust_dnames z) := by
    apply foldl_rel DnamesOnly dnamesOnly_refl (fun _ _ _ => dnamesOnly_trans)
    exact fun a b => dnamesOnly_adjust_nsec3_node a b
  have hsfin : StaticZ (dnslib_zone_load_nsec3param z)
      (dnslib_zone_adjust_dnames z) :=
    staticZ_trans hs1 (staticZ_of_dnamesOnly hd3)
  constructor
  · intro m
    rw [(hsfin.2.2.2.2.2.2.2 m).2.2, hlf.1]
  · intro d hd
    obtain ⟨nid, hnid, hdn⟩ : ∃ nid, nid ∈ z.tree ∧ d ∈ nodeItems z nid := by
      unfold zoneItems at hd
      rw [mem_foldr_append] at hd
      obtain ⟨nid, h1, h2⟩ := hd
      exact ⟨nid, h1, h2⟩
    have hnid0 : nid ∈ (dnslib_zone_load_nsec3param z).tree := by
      rw [hlf.2.1]
      exact hnid
    have hdn0 : d ∈ nodeItems (dnslib_zone_load_nsec3param z) nid := by
      unfold nodeItems at hdn ⊢
      rw [hlf.1]
      exact hdn
    have h1 : itemInterned
        ((dnslib_zone_load_nsec3param z).tree.foldl dnslib_zone_adjust_node
          (dnslib_zone_load_nsec3param z)) d :=
      foldl_establish_inv dnslib_zone_adjust_node (fun t => itemInterned t d)
        (fun t => StaticZ (dnslib_zone_load_nsec3param z) t)
        (fun t y hq => staticZ_trans hq (adjust_node_effect t y).1)
        (fun t y h => interned_pres_adjust_node t y d h) hnid0
        (fun t hq => interned_est_adjust_node (dnslib_zone_load_nsec3param z)
          t nid hq hdn0)
        (dnslib_zone_load_nsec3param z) (staticZ_refl _)
    have h2 := foldl_rel (fun a b => ∀ e, itemInterned a e → itemInterned b e)
      (fun a e h => h) (fun a b c f g e he => g e (f e he))
      dnslib_zone_adjust_nsec3_node
      (fun a b e he => interned_pres_nsec3_node a b e he)
      ((dnslib_zone_load_nsec3param z).tree.foldl dnslib_zone_adjust_node
        (dnslib_zone_load_nsec3param z)).nsec3Tree
      ((dnslib_zone_load_nsec3param z).tree.foldl dnslib_zone_adjust_node
        (dnslib_zone_load_nsec3param z)) d h1
    exact h2

theorem adjust_backlink_amended_witness :
    3 ∈ zoneItems zoneW ∧ itemInterned (dnslib_zone_adjust_dnames zoneW) 3 :=
  ⟨by decide, (adjust_backlink_amended zoneW).2 3 (by decide)⟩

end KnotVer
